import Mathlib

/-!
# drwmutex: a distributed reader-writer mutex

Shallow embedding of `drwmutex.go`.

* `sync.RWMutex` (standard library) is represented by its abstract state: a
  writer flag and a reader count.  A call that would wait is reported as
  `Outcome.blocked`, a run-time panic / fatal error as `Outcome.fatal`.
  A reader waits while a writer holds the mutex; that `sync.RWMutex` also
  holds new readers back behind a writer that is still waiting is not
  represented.
* `DRWMutex` is the slice of shards, `cpus` the package-level
  `map[uint64]int`, `cpu()` the identifier of the core the caller runs on
  (an argument of the operations that read it).
* For interleavings of several callers, `step` executes one statement of one
  caller; every call `mx[core].Lock()` etc. on a single shard is one atomic
  statement.
-/

namespace Drwmutex

/-! ## Outcomes -/

/-- Result of running a call by one caller with nobody else running:
`done a` the call returned, `blocked a` the call waits forever on a shard
(the payload is what had been reached by then), `fatal` the process died. -/
inductive Outcome (α : Type) where
  | done (a : α)
  | blocked (a : α)
  | fatal
  deriving DecidableEq

namespace Outcome

/-- Transport the payload of an outcome. -/
def map {α β : Type} (f : α → β) : Outcome α → Outcome β
  | done a => done (f a)
  | blocked a => blocked (f a)
  | fatal => fatal

/-- The successor state of an atomic statement, when it has one. -/
def toOption {α : Type} : Outcome α → Option α
  | done a => some a
  | blocked _ => none
  | fatal => none

end Outcome

/-! ## The shard primitive `sync.RWMutex` -/

/-- Abstract state of one `sync.RWMutex`: unlocked is `⟨false, 0⟩`,
read-locked by `n` readers is `⟨false, n⟩`, write-locked is `⟨true, 0⟩`. -/
structure RWMutex where
  writer : Bool
  readers : Nat
  deriving DecidableEq

namespace RWMutex

/-- The zero value of `sync.RWMutex`: an unlocked mutex. -/
def zero : RWMutex := ⟨false, 0⟩

/-- `rw.Lock()`: waits until there is neither a writer nor a reader. -/
def Lock (rw : RWMutex) : Outcome RWMutex :=
  if rw.writer = false ∧ rw.readers = 0 then .done ⟨true, rw.readers⟩ else .blocked rw

/-- `rw.Unlock()`: fatal error `sync: Unlock of unlocked RWMutex` when the
mutex is not locked for writing. -/
def Unlock (rw : RWMutex) : Outcome RWMutex :=
  if rw.writer = true then .done ⟨false, rw.readers⟩ else .fatal

/-- `rw.RLock()`: waits while a writer holds the mutex. -/
def RLock (rw : RWMutex) : Outcome RWMutex :=
  if rw.writer = true then .blocked rw else .done ⟨rw.writer, rw.readers + 1⟩

/-- `rw.RUnlock()`: fatal error `sync: RUnlock of unlocked RWMutex` when no
reader holds the mutex. -/
def RUnlock (rw : RWMutex) : Outcome RWMutex :=
  if rw.readers = 0 then .fatal else .done ⟨rw.writer, rw.readers - 1⟩

end RWMutex

/-! ## `cpus` and `DRWMutex` -/

/-- A CPUID value (`uint64`). -/
abbrev CoreId := Nat

/-- The package-level `cpus map[uint64]int`, as an association list. -/
abbrev CoreMap := List (CoreId × Int)

/-- The map read `cpus[c]`: the zero value `0` when the key is absent. -/
def CoreMap.get (cpus : CoreMap) (c : CoreId) : Int :=
  match cpus.lookup c with
  | some v => v
  | none => 0

/-- `type DRWMutex []sync.RWMutex`. -/
abbrev DRWMutex := List RWMutex

/-- The value `RLocker()` of a shard: a handle on that one shard (in Go a
pointer to `mx[shard]`), identified by the index of the shard. -/
structure Ticket where
  shard : Nat
  deriving DecidableEq

/-- `New()`: `make(DRWMutex, runtime.GOMAXPROCS(0))`; the argument is the
value `runtime.GOMAXPROCS(0)` returns. -/
def New (gomaxprocs : Nat) : DRWMutex := List.replicate gomaxprocs RWMutex.zero

namespace DRWMutex

/-- The slice index expression `mx[i]` for `i : int`: the index when it is in
range, a run-time panic otherwise. -/
def index (mx : DRWMutex) (i : Int) : Outcome Nat :=
  if 0 ≤ i ∧ i.toNat < mx.length then .done i.toNat else .fatal

/-- Call a method of `sync.RWMutex` on `mx[core]`. -/
def onShard (op : RWMutex → Outcome RWMutex) (mx : DRWMutex) (core : Nat) : Outcome DRWMutex :=
  match mx[core]? with
  | none => .fatal
  | some rw => (op rw).map (fun rw1 => mx.set core rw1)

/-- The loop of `Lock`, `for core := range mx { mx[core].Lock() }`, from
index `core` with `n` iterations to go.  The second component records, in
order, the indices of the shards whose exclusive lock has been acquired. -/
def Lock.loop : Nat → Nat → DRWMutex → List Nat → Outcome (DRWMutex × List Nat)
  | _, 0, mx, acquired => .done (mx, acquired)
  | core, n + 1, mx, acquired =>
    match onShard RWMutex.Lock mx core with
    | .done mx1 => Lock.loop (core + 1) n mx1 (acquired ++ [core])
    | .blocked mx1 => .blocked (mx1, acquired)
    | .fatal => .fatal

/-- `mx.Lock()`, with the record of the shards acquired. -/
def Lock (mx : DRWMutex) : Outcome (DRWMutex × List Nat) :=
  Lock.loop 0 mx.length mx []

/-- The loop of `Unlock`, `for core := range mx { mx[core].Unlock() }`. -/
def Unlock.loop : Nat → Nat → DRWMutex → Outcome DRWMutex
  | _, 0, mx => .done mx
  | core, n + 1, mx =>
    match onShard RWMutex.Unlock mx core with
    | .done mx1 => Unlock.loop (core + 1) n mx1
    | .blocked mx1 => .blocked mx1
    | .fatal => .fatal

/-- `mx.Unlock()`. -/
def Unlock (mx : DRWMutex) : Outcome DRWMutex :=
  Unlock.loop 0 mx.length mx

/-- `mx.RLocker()`: `return mx[cpus[cpu()]].RLocker()`. -/
def RLocker (cpus : CoreMap) (cpu : CoreId) (mx : DRWMutex) : Outcome Ticket :=
  (index mx (cpus.get cpu)).map Ticket.mk

end DRWMutex

namespace Ticket

/-- `l.Lock()` on the locker of a shard: `RLock` of that shard. -/
def Lock (l : Ticket) (mx : DRWMutex) : Outcome DRWMutex :=
  DRWMutex.onShard RWMutex.RLock mx l.shard

/-- `l.Unlock()` on the locker of a shard: `RUnlock` of that shard. -/
def Unlock (l : Ticket) (mx : DRWMutex) : Outcome DRWMutex :=
  DRWMutex.onShard RWMutex.RUnlock mx l.shard

end Ticket

namespace DRWMutex

/-- `mx.RLock()`: `l = mx[cpus[cpu()]].RLocker(); l.Lock(); return`. -/
def RLock (cpus : CoreMap) (cpu : CoreId) (mx : DRWMutex) : Outcome (DRWMutex × Ticket) :=
  match (index mx (cpus.get cpu)).map Ticket.mk with
  | .done l => (l.Lock mx).map (fun mx1 => (mx1, l))
  | .blocked l => .blocked (mx, l)
  | .fatal => .fatal

end DRWMutex

/-- Modelled from the spec: the resolver's build phase `map_cpus`, whose
source is not among the files.  The recorded core identifiers are
deduplicated and each is given a shard index by first-seen order, 0-based,
wrapping around when more distinct identifiers are seen than `P`. -/
def map_cpus.go (P : Nat) : List CoreId → CoreMap → CoreMap
  | [], m => m
  | c :: rest, m =>
    match m.lookup c with
    | some _ => map_cpus.go P rest m
    | none => map_cpus.go P rest (m ++ [(c, ((m.length % P : Nat) : Int))])

/-- Modelled from the spec: the core-to-shard map built from the identifiers
`observed` by the probes, for target parallelism `P` (see `map_cpus.go`). -/
def map_cpus (P : Nat) (observed : List CoreId) : CoreMap :=
  map_cpus.go P observed []

/-! ## Interleaved executions -/

/-- Where a caller stands. `locking core` / `unlocking core`: inside the loop
of `Lock` / `Unlock`, about to test `core` against `len(mx)`;
`writing`: `Lock` has returned and `Unlock` has not been called;
`rlocking l`: inside `RLock`, `l` computed, about to call `l.Lock()`;
`reading l`: `RLock` has returned `l` and `l.Unlock()` has not been called. -/
inductive Caller where
  | idle
  | locking (core : Nat)
  | writing
  | unlocking (core : Nat)
  | rlocking (l : Ticket)
  | reading (l : Ticket)
  deriving DecidableEq

/-- What a caller does next. -/
inductive Action where
  | callLock
  | callUnlock
  | callRLock (cpu : CoreId)
  | callTicketUnlock
  | run
  deriving DecidableEq

/-- The lock and the callers using it. -/
structure System where
  mx : DRWMutex
  callers : List Caller
  deriving DecidableEq

/-- One atomic statement of caller `t`.  `none`: the statement cannot be
executed now (the caller waits on a shard, or the action does not apply to
where the caller stands) or it kills the process. -/
def step (cpus : CoreMap) (s : System) (t : Nat) (a : Action) : Option System :=
  match s.callers[t]?, a with
  | some .idle, .callLock => some ⟨s.mx, s.callers.set t (.locking 0)⟩
  | some (.locking core), .run =>
    if core < s.mx.length then
      (DRWMutex.onShard RWMutex.Lock s.mx core).toOption.map
        (fun mx1 => ⟨mx1, s.callers.set t (.locking (core + 1))⟩)
    else some ⟨s.mx, s.callers.set t .writing⟩
  | some .writing, .callUnlock => some ⟨s.mx, s.callers.set t (.unlocking 0)⟩
  | some (.unlocking core), .run =>
    if core < s.mx.length then
      (DRWMutex.onShard RWMutex.Unlock s.mx core).toOption.map
        (fun mx1 => ⟨mx1, s.callers.set t (.unlocking (core + 1))⟩)
    else some ⟨s.mx, s.callers.set t .idle⟩
  | some .idle, .callRLock cpu =>
    (DRWMutex.RLocker cpus cpu s.mx).toOption.map
      (fun l => ⟨s.mx, s.callers.set t (.rlocking l)⟩)
  | some (.rlocking l), .run =>
    (l.Lock s.mx).toOption.map (fun mx1 => ⟨mx1, s.callers.set t (.reading l)⟩)
  | some (.reading l), .callTicketUnlock =>
    (l.Unlock s.mx).toOption.map (fun mx1 => ⟨mx1, s.callers.set t .idle⟩)
  | _, _ => none

/-- States reachable from a lock freshly built by `New` with `P` shards and
`N` callers that have not called anything yet. -/
inductive Reachable (cpus : CoreMap) (P N : Nat) : System → Prop where
  | init : Reachable cpus P N ⟨New P, List.replicate N .idle⟩
  | next {s s1 : System} (t : Nat) (a : Action) :
      Reachable cpus P N s → step cpus s t a = some s1 → Reachable cpus P N s1

/-! ## Sequences of calls, for the comparison with a plain `sync.RWMutex` -/

/-- A call on the lock: `Lock`, `Unlock`, `RLock` on core `cpu`, and
`l.Unlock()` on a ticket `l`. -/
inductive Op where
  | Lock
  | Unlock
  | RLock (cpu : CoreId)
  | ticketUnlock (l : Ticket)
  deriving DecidableEq

/-- The effect of a call on the distributed lock. -/
def DRWMutex.call (cpus : CoreMap) : Op → DRWMutex → Outcome DRWMutex
  | .Lock, mx => (DRWMutex.Lock mx).map Prod.fst
  | .Unlock, mx => DRWMutex.Unlock mx
  | .RLock cpu, mx => (DRWMutex.RLock cpus cpu mx).map Prod.fst
  | .ticketUnlock l, mx => l.Unlock mx

/-- The corresponding call on a plain `sync.RWMutex`: `Lock`, `Unlock`,
`RLock`, `RUnlock`. -/
def RWMutex.call : Op → RWMutex → Outcome RWMutex
  | .Lock, rw => rw.Lock
  | .Unlock, rw => rw.Unlock
  | .RLock _, rw => rw.RLock
  | .ticketUnlock _, rw => rw.RUnlock

/-- Run calls one after the other; a call that waits or dies ends the run. -/
def runCalls {σ : Type} (f : Op → σ → Outcome σ) : List Op → σ → Outcome σ
  | [], s => .done s
  | op :: rest, s =>
    match f op s with
    | .done s1 => runCalls f rest s1
    | .blocked s1 => .blocked s1
    | .fatal => .fatal

/-- The tickets `RLock` can return on a lock of `P` shards. -/
def Op.ticketsBelow (P : Nat) : Op → Prop
  | .ticketUnlock l => l.shard < P
  | _ => True

/-! ## Who holds what -/

/-- Caller `c` holds the exclusive lock of shard `j`: inside `Lock` it has
passed `j`, between `Lock` and `Unlock` it holds every shard, inside `Unlock`
it has not reached `j` yet. -/
def Caller.holdsW (j : Nat) : Caller → Bool
  | .locking core => decide (j < core)
  | .writing => true
  | .unlocking core => decide (core ≤ j)
  | _ => false

/-- Caller `c` holds a reader lock on shard `j`. -/
def Caller.holdsR (j : Nat) : Caller → Bool
  | .reading l => decide (l.shard = j)
  | _ => false

/-- Number of callers holding the exclusive lock of shard `j`. -/
def System.writersOn (s : System) (j : Nat) : Nat := s.callers.countP (Caller.holdsW j)

/-- Number of callers holding a reader lock on shard `j`. -/
def System.readersOn (s : System) (j : Nat) : Nat := s.callers.countP (Caller.holdsR j)

/-- The state of shard `j` agrees with what the callers hold. -/
def ShardOk (s : System) (j : Nat) : Prop :=
  ∃ rw, s.mx[j]? = some rw ∧ (rw.writer = true ↔ 0 < s.writersOn j) ∧
    rw.readers = s.readersOn j ∧ s.writersOn j ≤ 1 ∧ (0 < s.writersOn j → s.readersOn j = 0)

/-- The invariant of the interleaved executions on a lock of `P` shards. -/
def Inv (P : Nat) (s : System) : Prop :=
  s.mx.length = P ∧ (∀ j, j < P → ShardOk s j) ∧
  (∀ (t : Nat) (l : Ticket), s.callers[t]? = some (Caller.rlocking l) → l.shard < P) ∧
  (∀ (t : Nat) (l : Ticket), s.callers[t]? = some (Caller.reading l) → l.shard < P)

/-! ## Several writers -/

/-- The next statement of caller `t` when every caller runs `Lock` and then
`Unlock`, once: the statements of the two loops, and the call of `Unlock`
once `Lock` has returned. -/
def wstep (s : System) (t : Nat) : Option System :=
  match s.callers[t]? with
  | some (.locking _) => step [] s t .run
  | some .writing => step [] s t .callUnlock
  | some (.unlocking _) => step [] s t .run
  | _ => none

/-- States reachable when `N` callers have called `Lock` on the lock `New`
built with `P` shards, each calling `Unlock` after its `Lock` returns. -/
inductive WReachable (P N : Nat) : System → Prop where
  | init : WReachable P N ⟨New P, List.replicate N (.locking 0)⟩
  | next {s s1 : System} (t : Nat) :
      WReachable P N s → wstep s t = some s1 → WReachable P N s1

/-- Run the callers in the order given by the schedule, one statement each
time; `none` when a scheduled caller cannot execute its statement. -/
def runW : List Nat → System → Option System
  | [], s => some s
  | t :: rest, s =>
    match wstep s t with
    | some s1 => runW rest s1
    | none => none

/-- Number of statements a caller has left on a lock of `P` shards. -/
def Caller.work (P : Nat) : Caller → Nat
  | .idle => 0
  | .locking core => (P - core) + P + 3
  | .writing => P + 2
  | .unlocking core => (P - core) + 1
  | .rlocking _ => 2
  | .reading _ => 1

/-- Number of statements the callers have left together. -/
def System.work (P : Nat) (s : System) : Nat := (s.callers.map (Caller.work P)).sum

/-- The caller is idle or inside `Lock` ... `Unlock`. -/
def Caller.isWriter : Caller → Bool
  | .rlocking _ => false
  | .reading _ => false
  | _ => true

/-- What holds in every state of the writers-only executions. -/
def WInv (P N : Nat) (s : System) : Prop :=
  Inv P s ∧ s.callers.length = N ∧ ∀ c ∈ s.callers, Caller.isWriter c = true

/-! ## Lemmas on single-shard calls -/

theorem onShard_eq_done {op : RWMutex → Outcome RWMutex} {mx mx1 : DRWMutex} {core : Nat}
    (h : DRWMutex.onShard op mx core = .done mx1) :
    ∃ rw rw1, mx[core]? = some rw ∧ op rw = .done rw1 ∧ mx1 = mx.set core rw1 := by
  unfold DRWMutex.onShard at h
  cases hg : mx[core]? with
  | none => simp [hg] at h
  | some rw =>
    simp only [hg] at h
    cases ho : op rw with
    | done rw1 =>
      simp only [ho, Outcome.map, Outcome.done.injEq] at h
      exact ⟨rw, rw1, rfl, ho, h.symm⟩
    | blocked rw1 => simp [ho, Outcome.map] at h
    | fatal => simp [ho, Outcome.map] at h

theorem onShard_of_get {op : RWMutex → Outcome RWMutex} {mx : DRWMutex} {core : Nat}
    {rw : RWMutex} (h : mx[core]? = some rw) :
    DRWMutex.onShard op mx core = (op rw).map (fun rw1 => mx.set core rw1) := by
  simp [DRWMutex.onShard, h]

theorem shard_Lock_eq_done {rw rw1 : RWMutex} (h : rw.Lock = .done rw1) :
    rw = ⟨false, 0⟩ ∧ rw1 = ⟨true, 0⟩ := by
  obtain ⟨w, r⟩ := rw
  unfold RWMutex.Lock at h
  split at h
  · rename_i hc
    simp only [Outcome.done.injEq] at h
    simp only at hc
    obtain ⟨h1, h2⟩ := hc
    subst h1; subst h2
    exact ⟨rfl, h.symm⟩
  · simp at h

theorem shard_Lock_ne_fatal (rw : RWMutex) : rw.Lock ≠ .fatal := by
  unfold RWMutex.Lock
  split <;> simp

theorem Lock_loop_ne_fatal (n : Nat) : ∀ (core : Nat) (mx : DRWMutex) (acquired : List Nat),
    core + n ≤ mx.length → DRWMutex.Lock.loop core n mx acquired ≠ .fatal := by
  induction n with
  | zero => intro core mx acquired _; simp [DRWMutex.Lock.loop]
  | succ n ih =>
    intro core mx acquired hlen
    have hc : core < mx.length := by omega
    have hg : mx[core]? = some mx[core] := List.getElem?_eq_getElem hc
    unfold DRWMutex.Lock.loop
    rw [onShard_of_get hg]
    cases ho : mx[core].Lock with
    | done rw1 =>
      simp only [Outcome.map]
      apply ih
      simp only [List.length_set]
      omega
    | blocked rw1 => simp [Outcome.map]
    | fatal => exact absurd ho (shard_Lock_ne_fatal _)

theorem Lock_loop_done (n : Nat) : ∀ (core : Nat) (mx mx1 : DRWMutex) (acquired a1 : List Nat),
    core + n ≤ mx.length → DRWMutex.Lock.loop core n mx acquired = .done (mx1, a1) →
    a1 = acquired ++ List.range' core n ∧ mx1.length = mx.length ∧
    (∀ j, core ≤ j → j < core + n → mx[j]? = some ⟨false, 0⟩ ∧ mx1[j]? = some ⟨true, 0⟩) ∧
    (∀ j, ¬ (core ≤ j ∧ j < core + n) → mx1[j]? = mx[j]?) := by
  induction n with
  | zero =>
    intro core mx mx1 acquired a1 _ h
    simp only [DRWMutex.Lock.loop, Outcome.done.injEq, Prod.mk.injEq] at h
    obtain ⟨h1, h2⟩ := h
    subst h1; subst h2
    refine ⟨by simp, rfl, ?_, ?_⟩
    · intro j h1 h2; omega
    · intro j _; rfl
  | succ n ih =>
    intro core mx mx1 acquired a1 hlen h
    unfold DRWMutex.Lock.loop at h
    cases ho : DRWMutex.onShard RWMutex.Lock mx core with
    | done mx2 =>
      simp only [ho] at h
      obtain ⟨rw, rw1, hg, hop, hset⟩ := onShard_eq_done ho
      obtain ⟨hrw, hrw1⟩ := shard_Lock_eq_done hop
      subst hrw; subst hrw1
      have hlen2 : core + 1 + n ≤ mx2.length := by
        rw [hset, List.length_set]; omega
      obtain ⟨ha, hl, hin, hout⟩ := ih (core + 1) mx2 mx1 _ a1 hlen2 h
      have hc : core < mx.length := by omega
      refine ⟨?_, ?_, ?_, ?_⟩
      · rw [ha, List.range'_succ]; simp
      · rw [hl, hset, List.length_set]
      · intro j h1 h2
        by_cases hj : j = core
        · subst hj
          refine ⟨hg, ?_⟩
          rw [hout j (by omega), hset]
          simp [List.getElem?_set, hc]
        · obtain ⟨h3, h4⟩ := hin j (by omega) (by omega)
          refine ⟨?_, h4⟩
          rw [hset, List.getElem?_set_ne (Ne.symm hj)] at h3
          exact h3
      · intro j hj
        rw [hout j (by omega), hset, List.getElem?_set_ne (by omega)]
    | blocked mx2 => simp [ho] at h
    | fatal => simp [ho] at h

theorem shard_Lock_eq_blocked {rw rw1 : RWMutex} (h : rw.Lock = .blocked rw1) :
    rw ≠ ⟨false, 0⟩ ∧ rw1 = rw := by
  obtain ⟨w, r⟩ := rw
  unfold RWMutex.Lock at h
  split at h
  · simp at h
  · rename_i hc
    simp only [Outcome.blocked.injEq] at h
    refine ⟨?_, h.symm⟩
    intro he
    simp only [RWMutex.mk.injEq] at he
    exact hc ⟨he.1, he.2⟩

theorem Lock_loop_blocked (n : Nat) : ∀ (core : Nat) (mx mx1 : DRWMutex) (acquired a1 : List Nat),
    core + n ≤ mx.length → DRWMutex.Lock.loop core n mx acquired = .blocked (mx1, a1) →
    ∃ k, k < n ∧ a1 = acquired ++ List.range' core k ∧
      ∃ rw, mx[core + k]? = some rw ∧ rw ≠ ⟨false, 0⟩ := by
  induction n with
  | zero =>
    intro core mx mx1 acquired a1 _ h
    simp [DRWMutex.Lock.loop] at h
  | succ n ih =>
    intro core mx mx1 acquired a1 hlen h
    have hc : core < mx.length := by omega
    have hg : mx[core]? = some mx[core] := List.getElem?_eq_getElem hc
    unfold DRWMutex.Lock.loop at h
    rw [onShard_of_get hg] at h
    cases ho : mx[core].Lock with
    | done rw1 =>
      simp only [ho, Outcome.map] at h
      have hlen2 : core + 1 + n ≤ (mx.set core rw1).length := by
        rw [List.length_set]; omega
      obtain ⟨k, hk, ha, rw, hrw, hne⟩ := ih (core + 1) _ mx1 _ a1 hlen2 h
      refine ⟨k + 1, by omega, ?_, rw, ?_, hne⟩
      · rw [ha, List.range'_succ]; simp
      · rw [List.getElem?_set_ne (by omega)] at hrw
        rw [← hrw]
        congr 1
        omega
    | blocked rw1 =>
      simp only [ho, Outcome.map, Outcome.blocked.injEq, Prod.mk.injEq] at h
      refine ⟨0, by omega, ?_, mx[core], hg, (shard_Lock_eq_blocked ho).1⟩
      simp [h.2]
    | fatal => exact absurd ho (shard_Lock_ne_fatal _)

theorem Lock_loop_free (n : Nat) : ∀ (core : Nat) (mx : DRWMutex) (acquired : List Nat),
    (∀ j, core ≤ j → j < core + n → mx[j]? = some ⟨false, 0⟩) →
    ∃ mx1, DRWMutex.Lock.loop core n mx acquired = .done (mx1, acquired ++ List.range' core n) := by
  induction n with
  | zero => intro core mx acquired _; exact ⟨mx, by simp [DRWMutex.Lock.loop]⟩
  | succ n ih =>
    intro core mx acquired hfree
    have hg := hfree core (by omega) (by omega)
    unfold DRWMutex.Lock.loop
    rw [onShard_of_get hg]
    simp only [RWMutex.Lock, Outcome.map, and_self, if_true]
    obtain ⟨mx1, h1⟩ := ih (core + 1) (mx.set core ⟨true, 0⟩) (acquired ++ [core]) (by
      intro j h1 h2
      rw [List.getElem?_set_ne (by omega)]
      exact hfree j (by omega) (by omega))
    refine ⟨mx1, ?_⟩
    rw [h1, List.range'_succ]
    simp

theorem eq_replicate_of_getElem? {α : Type} (l : List α) (a : α)
    (h : ∀ j, j < l.length → l[j]? = some a) : l = List.replicate l.length a := by
  apply List.ext_getElem?
  intro j
  by_cases hj : j < l.length
  · rw [h j hj]
    simp [List.getElem?_replicate, hj]
  · have h1 : l[j]? = none := List.getElem?_eq_none (by omega)
    rw [h1]
    simp [List.getElem?_replicate, hj]

/-- C2: `Lock` never panics; when it returns it has acquired the exclusive
lock of the shards `0, 1, ..., P-1`, each once, in this order, and every shard
is write-locked; when it waits it has acquired `0, ..., k-1` in this order and
waits on shard `k`, which is not free; from the state where all `P` shards are
free it returns with all `P` shards write-locked. -/
theorem Lock_acquires_every_shard_ascending (mx : DRWMutex) :
    DRWMutex.Lock mx ≠ .fatal ∧
    (∀ mx1 acquired, DRWMutex.Lock mx = .done (mx1, acquired) →
      acquired = List.range mx.length ∧ mx1 = List.replicate mx.length ⟨true, 0⟩) ∧
    (∀ mx1 acquired, DRWMutex.Lock mx = .blocked (mx1, acquired) →
      ∃ k, k < mx.length ∧ acquired = List.range k ∧
        ∃ rw, mx[k]? = some rw ∧ rw ≠ RWMutex.zero) ∧
    ((∀ rw ∈ mx, rw = RWMutex.zero) →
      DRWMutex.Lock mx =
        .done (List.replicate mx.length ⟨true, 0⟩, List.range mx.length)) := by
  have key : ∀ mx1 acquired, DRWMutex.Lock mx = .done (mx1, acquired) →
      acquired = List.range mx.length ∧ mx1 = List.replicate mx.length ⟨true, 0⟩ := by
    intro mx1 acquired h
    obtain ⟨ha, hl, hin, _⟩ := Lock_loop_done mx.length 0 mx mx1 [] acquired (by omega) h
    refine ⟨by simpa [List.range_eq_range'] using ha, ?_⟩
    rw [← hl]
    apply eq_replicate_of_getElem?
    intro j hj
    exact (hin j (by omega) (by omega)).2
  refine ⟨Lock_loop_ne_fatal mx.length 0 mx [] (by omega), key, ?_, ?_⟩
  · intro mx1 acquired h
    obtain ⟨k, hk, ha, rw, hrw, hne⟩ :=
      Lock_loop_blocked mx.length 0 mx mx1 [] acquired (by omega) h
    refine ⟨k, hk, by simpa [List.range_eq_range'] using ha, rw, ?_, hne⟩
    simpa using hrw
  · intro hfree
    obtain ⟨mx1, h1⟩ := Lock_loop_free mx.length 0 mx [] (by
      intro j _ hj
      have hj1 : j < mx.length := by omega
      rw [List.getElem?_eq_getElem hj1]
      exact congrArg some (hfree _ (List.getElem_mem hj1)))
    have h2 : DRWMutex.Lock mx = .done (mx1, [] ++ List.range' 0 mx.length) := h1
    obtain ⟨_, hm⟩ := key _ _ h2
    rw [h2, hm]
    simp [List.range_eq_range']

theorem Unlock_loop_locked (n : Nat) : ∀ (core : Nat) (mx : DRWMutex),
    (∀ j, core ≤ j → j < core + n → mx[j]? = some ⟨true, 0⟩) →
    ∃ mx1, DRWMutex.Unlock.loop core n mx = .done mx1 ∧ mx1.length = mx.length ∧
      (∀ j, core ≤ j → j < core + n → mx1[j]? = some ⟨false, 0⟩) ∧
      (∀ j, ¬ (core ≤ j ∧ j < core + n) → mx1[j]? = mx[j]?) := by
  induction n with
  | zero =>
    intro core mx _
    refine ⟨mx, by simp [DRWMutex.Unlock.loop], rfl, ?_, ?_⟩
    · intro j h1 h2; omega
    · intro j _; rfl
  | succ n ih =>
    intro core mx hlocked
    have hg := hlocked core (by omega) (by omega)
    have hc : core < mx.length := by
      by_contra hcon
      rw [List.getElem?_eq_none (by omega)] at hg
      cases hg
    obtain ⟨mx1, h1, hl, hin, hout⟩ := ih (core + 1) (mx.set core ⟨false, 0⟩) (by
      intro j h1 h2
      rw [List.getElem?_set_ne (by omega)]
      exact hlocked j (by omega) (by omega))
    refine ⟨mx1, ?_, ?_, ?_, ?_⟩
    · unfold DRWMutex.Unlock.loop
      rw [onShard_of_get hg]
      simp only [RWMutex.Unlock, Outcome.map, if_true]
      exact h1
    · rw [hl, List.length_set]
    · intro j h1 h2
      by_cases hj : j = core
      · subst hj
        rw [hout j (by omega)]
        simp [List.getElem?_set, hc]
      · exact hin j (by omega) (by omega)
    · intro j hj
      rw [hout j (by omega), List.getElem?_set_ne (by omega)]

theorem Unlock_all_locked (P : Nat) :
    DRWMutex.Unlock (List.replicate P (⟨true, 0⟩ : RWMutex)) = .done (New P) := by
  obtain ⟨mx1, h1, hl, hin, _⟩ :=
    Unlock_loop_locked P 0 (List.replicate P (⟨true, 0⟩ : RWMutex)) (by
      intro j _ hj
      simp only [List.getElem?_replicate]
      rw [if_pos (by omega)])
  have h2 : DRWMutex.Unlock (List.replicate P (⟨true, 0⟩ : RWMutex)) = .done mx1 := by
    unfold DRWMutex.Unlock
    simpa using h1
  rw [h2]
  have h3 : mx1 = List.replicate mx1.length (⟨false, 0⟩ : RWMutex) := by
    apply eq_replicate_of_getElem?
    intro j hj
    exact hin j (by omega) (by simpa [hl] using hj)
  rw [h3, hl]
  simp [New, RWMutex.zero]

theorem Lock_New (P : Nat) :
    DRWMutex.Lock (New P) = .done (List.replicate P ⟨true, 0⟩, List.range P) := by
  obtain ⟨mx1, h1⟩ := Lock_loop_free P 0 (New P) [] (by
    intro j _ hj
    simp only [New, RWMutex.zero, List.getElem?_replicate]
    rw [if_pos (by omega)])
  have h2 : DRWMutex.Lock (New P) = .done (mx1, [] ++ List.range' 0 P) := by
    unfold DRWMutex.Lock
    simpa [New] using h1
  obtain ⟨_, _, hin, _⟩ := Lock_loop_done (New P).length 0 (New P) mx1 [] _ (by omega) h2
  obtain ⟨_, hl, _, _⟩ := Lock_loop_done (New P).length 0 (New P) mx1 [] _ (by omega) h2
  have h3 : mx1 = List.replicate mx1.length (⟨true, 0⟩ : RWMutex) := by
    apply eq_replicate_of_getElem?
    intro j hj
    exact (hin j (by omega) (by omega)).2
  rw [h2, h3, hl]
  simp [New, List.range_eq_range']

/-- C8: on the lock `New` builds with `P` shards, all unlocked, `Lock` returns
(it waits at no shard and does not panic) with every shard write-locked, and
the `Unlock` that follows returns with the lock back in the state `New` built:
`P` unlocked shards. -/
theorem New_Lock_Unlock_roundtrip (P : Nat) :
    (New P).length = P ∧ (∀ rw ∈ New P, rw = RWMutex.zero) ∧
    DRWMutex.Lock (New P) = .done (List.replicate P ⟨true, 0⟩, List.range P) ∧
    DRWMutex.Unlock (List.replicate P ⟨true, 0⟩) = .done (New P) := by
  refine ⟨by simp [New], ?_, Lock_New P, Unlock_all_locked P⟩
  intro rw hrw
  exact List.eq_of_mem_replicate hrw

/-! ## Readers -/

theorem set_eq_self_of_getElem? {α : Type} {l : List α} {i : Nat} {a : α}
    (h : l[i]? = some a) : l.set i a = l := by
  apply List.ext_getElem?
  intro j
  by_cases hj : i = j
  · subst hj
    have hi : i < l.length := by
      by_contra hcon
      rw [List.getElem?_eq_none (by omega)] at h
      cases h
    simp [List.getElem?_set, hi, h]
  · rw [List.getElem?_set_ne hj]

theorem index_eq_done {mx : DRWMutex} {v : Int} {i : Nat}
    (h : DRWMutex.index mx v = .done i) : 0 ≤ v ∧ v.toNat = i ∧ i < mx.length := by
  unfold DRWMutex.index at h
  split at h
  · rename_i hc
    simp only [Outcome.done.injEq] at h
    subst h
    exact ⟨hc.1, rfl, hc.2⟩
  · simp at h

theorem index_of_lt {mx : DRWMutex} {v : Int} (h0 : 0 ≤ v) (h1 : v.toNat < mx.length) :
    DRWMutex.index mx v = .done v.toNat := by
  unfold DRWMutex.index
  rw [if_pos ⟨h0, h1⟩]

theorem index_not_blocked (mx : DRWMutex) (v : Int) (i : Nat) :
    DRWMutex.index mx v ≠ .blocked i := by
  unfold DRWMutex.index
  split <;> simp

theorem RLock_of_index {cpus : CoreMap} {cpu : CoreId} {mx : DRWMutex} {i : Nat}
    {rw : RWMutex} (hi : DRWMutex.index mx (cpus.get cpu) = .done i) (hg : mx[i]? = some rw) :
    DRWMutex.RLock cpus cpu mx =
      if rw.writer = true then .blocked (mx, ⟨i⟩)
      else .done (mx.set i ⟨rw.writer, rw.readers + 1⟩, ⟨i⟩) := by
  unfold DRWMutex.RLock
  rw [hi]
  simp only [Outcome.map, Ticket.Lock]
  rw [onShard_of_get hg]
  unfold RWMutex.RLock
  by_cases hw : rw.writer = true
  · rw [if_pos hw, if_pos hw]
    simp only [Outcome.map]
    rw [set_eq_self_of_getElem? hg]
  · rw [if_neg hw, if_neg hw]
    simp only [Outcome.map]

theorem RLock_eq_done {cpus : CoreMap} {cpu : CoreId} {mx mx1 : DRWMutex} {l : Ticket}
    (h : DRWMutex.RLock cpus cpu mx = .done (mx1, l)) :
    DRWMutex.index mx (cpus.get cpu) = .done l.shard ∧
    ∃ rw, mx[l.shard]? = some rw ∧ rw.writer = false ∧
      mx1 = mx.set l.shard ⟨false, rw.readers + 1⟩ := by
  cases hi : DRWMutex.index mx (cpus.get cpu) with
  | done i =>
    obtain ⟨_, _, hlt⟩ := index_eq_done hi
    have hg : mx[i]? = some mx[i] := List.getElem?_eq_getElem hlt
    rw [RLock_of_index hi hg] at h
    split at h
    · simp at h
    · rename_i hw
      simp only [Outcome.done.injEq, Prod.mk.injEq] at h
      obtain ⟨h1, h2⟩ := h
      subst h2
      have hw1 : mx[i].writer = false := by simpa using hw
      refine ⟨rfl, mx[i], hg, hw1, ?_⟩
      rw [← h1, hw1]
  | blocked i => exact absurd hi (index_not_blocked _ _ _)
  | fatal =>
    unfold DRWMutex.RLock at h
    rw [hi] at h
    simp [Outcome.map] at h

/-- C3: when the current core resolves to shard `i`, `RLock` waits exactly
when shard `i` is write-locked, and otherwise returns the ticket of shard `i`
with one more reader on shard `i` and every other shard as it was; whether it
returns depends on shard `i` alone, so a reader that took a shard `j ≠ i`
neither delays it nor is delayed by it. -/
theorem RLock_touches_only_its_shard (cpus : CoreMap) (cpu : CoreId) (mx : DRWMutex) (i : Nat)
    (hi : DRWMutex.index mx (cpus.get cpu) = .done i) :
    (∃ rw, mx[i]? = some rw ∧
      DRWMutex.RLock cpus cpu mx =
        if rw.writer = true then .blocked (mx, ⟨i⟩)
        else .done (mx.set i ⟨false, rw.readers + 1⟩, ⟨i⟩)) ∧
    (∀ mx1 l, DRWMutex.RLock cpus cpu mx = .done (mx1, l) →
      l = ⟨i⟩ ∧ mx1.length = mx.length ∧ ∀ j, j ≠ i → mx1[j]? = mx[j]?) ∧
    (∀ mx2 : DRWMutex, mx2.length = mx.length → mx2[i]? = mx[i]? →
      ((∃ p, DRWMutex.RLock cpus cpu mx2 = .done p) ↔
        (∃ p, DRWMutex.RLock cpus cpu mx = .done p))) ∧
    (∀ (cpu2 : CoreId) (j : Nat) (mx1 mx2 : DRWMutex) (l l2 : Ticket),
      DRWMutex.index mx (cpus.get cpu2) = .done j → j ≠ i →
      DRWMutex.RLock cpus cpu2 mx = .done (mx2, l2) →
      DRWMutex.RLock cpus cpu mx = .done (mx1, l) →
      DRWMutex.RLock cpus cpu mx2 = .done (mx2.set i (mx1.getD i RWMutex.zero), l) ∧
      DRWMutex.RLock cpus cpu2 mx1 = .done (mx1.set j (mx2.getD j RWMutex.zero), l2)) := by
  obtain ⟨h0, htn, hlt⟩ := index_eq_done hi
  have hg : mx[i]? = some mx[i] := List.getElem?_eq_getElem hlt
  have hdone : ∀ mx1 l, DRWMutex.RLock cpus cpu mx = .done (mx1, l) →
      l = ⟨i⟩ ∧ mx1.length = mx.length ∧ ∀ j, j ≠ i → mx1[j]? = mx[j]? := by
    intro mx1 l h
    obtain ⟨h1, rw, _, _, hset⟩ := RLock_eq_done h
    rw [hi] at h1
    simp only [Outcome.done.injEq] at h1
    refine ⟨by cases l; simp only [Ticket.mk.injEq]; exact h1.symm, by rw [hset, List.length_set], ?_⟩
    intro j hj
    rw [hset, ← h1, List.getElem?_set_ne (Ne.symm hj)]
  refine ⟨⟨mx[i], hg, ?_⟩, hdone, ?_, ?_⟩
  · rw [RLock_of_index hi hg]
    split
    · rfl
    · rename_i hw
      have hw1 : mx[i].writer = false := by simpa using hw
      rw [hw1]
  · intro mx2 hlen hsame
    have hi2 : DRWMutex.index mx2 (cpus.get cpu) = .done i := by
      rw [← htn]
      exact index_of_lt h0 (by omega)
    rw [RLock_of_index hi2 (hsame.trans hg), RLock_of_index hi hg]
    by_cases hw : mx[i].writer = true
    · rw [if_pos hw, if_pos hw]
      simp
    · rw [if_neg hw, if_neg hw]
      simp
  · intro cpu2 j mx1 mx2 l l2 hj hne h2 h1
    obtain ⟨hj0, hjtn, hjlt⟩ := index_eq_done hj
    obtain ⟨e1, rw1, g1, w1, s1⟩ := RLock_eq_done h1
    obtain ⟨e2, rw2, g2, w2, s2⟩ := RLock_eq_done h2
    rw [hi] at e1
    rw [hj] at e2
    simp only [Outcome.done.injEq] at e1 e2
    have hl : l = ⟨i⟩ := by
      cases l
      simp only [Ticket.mk.injEq]
      exact e1.symm
    have hl2 : l2 = ⟨j⟩ := by
      cases l2
      simp only [Ticket.mk.injEq]
      exact e2.symm
    subst hl; subst hl2
    simp only at g1 g2 s1 s2
    have hi2 : DRWMutex.index mx2 (cpus.get cpu) = .done i := by
      rw [← htn]
      exact index_of_lt h0 (by rw [s2, List.length_set]; omega)
    have hj1 : DRWMutex.index mx1 (cpus.get cpu2) = .done j := by
      rw [← hjtn]
      exact index_of_lt hj0 (by rw [s1, List.length_set]; omega)
    have gi2 : mx2[i]? = some rw1 := by
      rw [s2, List.getElem?_set_ne hne]; exact g1
    have gj1 : mx1[j]? = some rw2 := by
      rw [s1, List.getElem?_set_ne (Ne.symm hne)]; exact g2
    have v1 : mx1.getD i RWMutex.zero = ⟨false, rw1.readers + 1⟩ := by
      rw [List.getD_eq_getElem?_getD, s1]
      simp [List.getElem?_set, hlt]
    have v2 : mx2.getD j RWMutex.zero = ⟨false, rw2.readers + 1⟩ := by
      rw [List.getD_eq_getElem?_getD, s2]
      simp [List.getElem?_set, hjlt]
    constructor
    · rw [RLock_of_index hi2 gi2, v1]
      simp [w1]
    · rw [RLock_of_index hj1 gj1, v2]
      simp [w2]

/-- C3 at a two-shard lock whose shard 0 is write-locked: the reader on the
core mapped to shard 1 is not held up. -/
theorem RLock_touches_only_its_shard_witness :
    DRWMutex.index [⟨true, 0⟩, ⟨false, 2⟩] (CoreMap.get [(7, 1)] 7) = .done 1 ∧
    ∃ rw, ([⟨true, 0⟩, ⟨false, 2⟩] : DRWMutex)[1]? = some rw ∧
      DRWMutex.RLock [(7, 1)] 7 [⟨true, 0⟩, ⟨false, 2⟩] =
        if rw.writer = true then .blocked ([⟨true, 0⟩, ⟨false, 2⟩], ⟨1⟩)
        else .done (([⟨true, 0⟩, ⟨false, 2⟩] : DRWMutex).set 1 ⟨false, rw.readers + 1⟩, ⟨1⟩) :=
  ⟨by decide,
   (RLock_touches_only_its_shard [(7, 1)] 7 [⟨true, 0⟩, ⟨false, 2⟩] 1 (by decide)).1⟩

theorem Ticket_Unlock_of_get {l : Ticket} {mx : DRWMutex} {rw : RWMutex}
    (hg : mx[l.shard]? = some rw) (hr : 0 < rw.readers) :
    l.Unlock mx = .done (mx.set l.shard ⟨rw.writer, rw.readers - 1⟩) := by
  unfold Ticket.Unlock
  rw [onShard_of_get hg]
  unfold RWMutex.RUnlock
  rw [if_neg (by omega)]
  rfl

theorem eq_New_of_all_zero {mx : DRWMutex} (h : ∀ rw ∈ mx, rw = RWMutex.zero) :
    mx = New mx.length := by
  unfold New
  exact List.eq_replicate_iff.mpr ⟨rfl, h⟩

theorem RLock_Unlock_restore {cpus : CoreMap} {cpu : CoreId} {mx mx1 : DRWMutex} {l : Ticket}
    (h : DRWMutex.RLock cpus cpu mx = .done (mx1, l)) : l.Unlock mx1 = .done mx := by
  obtain ⟨hi, rw, hg, hw, hset⟩ := RLock_eq_done h
  obtain ⟨_, _, hlt⟩ := index_eq_done hi
  have hg1 : mx1[l.shard]? = some ⟨false, rw.readers + 1⟩ := by
    rw [hset]
    simp [List.getElem?_set, hlt]
  rw [Ticket_Unlock_of_get hg1 (by simp), hset, List.set_set]
  have hrw : (⟨false, rw.readers + 1 - 1⟩ : RWMutex) = rw := by
    cases rw
    simp_all
  simp only [hrw]
  rw [set_eq_self_of_getElem? hg]

/-- C5: when `RLock` returns, unlocking the ticket it returned succeeds and
gives back exactly the lock state from before the `RLock`; when that state had
all shards free, the shard of the ticket is free again and a `Lock` that
follows returns, with every shard write-locked. -/
theorem RLock_ticket_Unlock_roundtrip (cpus : CoreMap) (cpu : CoreId) (mx mx1 : DRWMutex)
    (l : Ticket) (h : DRWMutex.RLock cpus cpu mx = .done (mx1, l)) :
    l.Unlock mx1 = .done mx ∧
    ((∀ rw ∈ mx, rw = RWMutex.zero) →
      ∃ mx2, l.Unlock mx1 = .done mx2 ∧ mx2[l.shard]? = some RWMutex.zero ∧
        DRWMutex.Lock mx2 =
          .done (List.replicate mx.length ⟨true, 0⟩, List.range mx.length)) := by
  refine ⟨RLock_Unlock_restore h, ?_⟩
  intro hfree
  refine ⟨mx, RLock_Unlock_restore h, ?_, ?_⟩
  · obtain ⟨_, rw, hg, _, _⟩ := RLock_eq_done h
    rw [hg]
    exact congrArg some (hfree rw (List.getElem?_mem hg))
  · have h1 := Lock_New mx.length
    rw [← eq_New_of_all_zero hfree] at h1
    exact h1

/-- C5 at a two-shard lock, reading on the core mapped to shard 1. -/
theorem RLock_ticket_Unlock_roundtrip_witness :
    DRWMutex.RLock [(7, 1)] 7 (New 2) = .done ([⟨false, 0⟩, ⟨false, 1⟩], ⟨1⟩) ∧
    (Ticket.mk 1).Unlock [⟨false, 0⟩, ⟨false, 1⟩] = .done (New 2) :=
  ⟨by decide,
   (RLock_ticket_Unlock_roundtrip [(7, 1)] 7 (New 2) [⟨false, 0⟩, ⟨false, 1⟩] ⟨1⟩
     (by decide)).1⟩

/-- C4: a ticket `RLock` returned for shard `i` stays bound to shard `i`:
in any later state in which shard `i` still has a reader, unlocking the ticket
takes one reader off shard `i` and leaves every other shard as it is, in
particular the shard `j ≠ i` that the caller's core resolves to at that time,
whatever that core and whatever the core map. -/
theorem ticket_Unlock_releases_recorded_shard (cpus : CoreMap) (cpu : CoreId)
    (mx mx1 : DRWMutex) (l : Ticket) (i : Nat)
    (hi : DRWMutex.index mx (cpus.get cpu) = .done i)
    (h : DRWMutex.RLock cpus cpu mx = .done (mx1, l)) :
    l.shard = i ∧ l.Unlock mx1 = .done mx ∧
    ∀ (mx2 : DRWMutex) (rw : RWMutex), mx2[i]? = some rw → 0 < rw.readers →
      ∃ mx3, l.Unlock mx2 = .done mx3 ∧
        mx3[i]? = some ⟨rw.writer, rw.readers - 1⟩ ∧ mx3.length = mx2.length ∧
        (∀ j, j ≠ i → mx3[j]? = mx2[j]?) ∧
        (∀ (cpus2 : CoreMap) (cpuNow : CoreId) (j : Nat),
          DRWMutex.index mx2 (cpus2.get cpuNow) = .done j → j ≠ i →
            mx3[j]? = mx2[j]? ∧ mx3[i]? ≠ mx2[i]?) := by
  obtain ⟨h1, _⟩ := RLock_eq_done h
  rw [hi] at h1
  simp only [Outcome.done.injEq] at h1
  refine ⟨h1.symm, RLock_Unlock_restore h, ?_⟩
  intro mx2 rw hg hr
  have hlt : i < mx2.length := by
    by_contra hcon
    rw [List.getElem?_eq_none (by omega)] at hg
    cases hg
  have hg1 : mx2[l.shard]? = some rw := by rw [← h1]; exact hg
  refine ⟨_, Ticket_Unlock_of_get hg1 hr, ?_, ?_, ?_, ?_⟩
  · rw [← h1]
    simp [List.getElem?_set, hlt]
  · rw [List.length_set]
  · intro j hj
    rw [← h1, List.getElem?_set_ne (Ne.symm hj)]
  · intro cpus2 cpuNow j _ hj
    refine ⟨by rw [← h1, List.getElem?_set_ne (Ne.symm hj)], ?_⟩
    rw [← h1, hg]
    simp only [List.getElem?_set, hlt, if_true, ne_eq, Option.some.injEq]
    intro he
    have := congrArg RWMutex.readers he
    simp only at this
    omega

/-- C4 at a two-shard lock: the ticket is taken on the core mapped to shard 1. -/
theorem ticket_Unlock_releases_recorded_shard_witness :
    (Ticket.mk 1).shard = 1 ∧
    (Ticket.mk 1).Unlock [⟨false, 0⟩, ⟨false, 1⟩] = .done (New 2) :=
  let h := ticket_Unlock_releases_recorded_shard [(7, 1), (8, 0)] 7 (New 2)
    [⟨false, 0⟩, ⟨false, 1⟩] ⟨1⟩ 1 (by decide) (by decide)
  ⟨h.1, h.2.1⟩

/-! ## The core map -/

theorem get_of_lookup_none {cpus : CoreMap} {c : CoreId} (h : cpus.lookup c = none) :
    cpus.get c = 0 := by
  unfold CoreMap.get
  rw [h]

/-- C6, as stated, fails: core 7 is absent from the map, and `RLock` read-locks
shard 0 and `RLocker` returns the locker of shard 0. -/
theorem unmapped_core_takes_shard_zero_example :
    List.lookup 7 ([(3, 1)] : CoreMap) = none ∧
    DRWMutex.RLock [(3, 1)] 7 (New 2) = .done ([⟨false, 1⟩, ⟨false, 0⟩], ⟨0⟩) ∧
    DRWMutex.RLocker [(3, 1)] 7 (New 2) = .done ⟨0⟩ := by
  decide

/-- C6, amended: for a core absent from the map the lookup yields index 0;
on a lock with at least one shard `RLocker` returns the locker of shard 0 and
`RLock` acts on shard 0 (it waits when shard 0 is write-locked and read-locks
it otherwise); only on a lock without shards do both die, on the index. -/
theorem unmapped_core_resolves_to_shard_zero (cpus : CoreMap) (cpu : CoreId) (mx : DRWMutex)
    (habsent : cpus.lookup cpu = none) :
    cpus.get cpu = 0 ∧
    DRWMutex.RLocker cpus cpu mx = (if 0 < mx.length then .done ⟨0⟩ else .fatal) ∧
    DRWMutex.RLock cpus cpu mx =
      (match mx[0]? with
       | none => .fatal
       | some rw =>
         if rw.writer = true then .blocked (mx, ⟨0⟩)
         else .done (mx.set 0 ⟨false, rw.readers + 1⟩, ⟨0⟩)) := by
  have h0 := get_of_lookup_none habsent
  refine ⟨h0, ?_, ?_⟩
  · unfold DRWMutex.RLocker DRWMutex.index
    rw [h0]
    by_cases hl : 0 < mx.length
    · simp [hl, Outcome.map]
    · simp [hl, Outcome.map]
  · cases hg : mx[0]? with
    | none =>
      have hl : mx.length = 0 := by
        by_contra hcon
        rw [List.getElem?_eq_getElem (by omega)] at hg
        cases hg
      unfold DRWMutex.RLock DRWMutex.index
      rw [h0]
      simp [hl, Outcome.map]
    | some rw =>
      have hl : 0 < mx.length := by
        by_contra hcon
        rw [List.getElem?_eq_none (by omega)] at hg
        cases hg
      have hi : DRWMutex.index mx (cpus.get cpu) = .done 0 := by
        rw [h0]
        exact index_of_lt (le_refl _) hl
      rw [RLock_of_index hi hg]
      by_cases hw : rw.writer = true
      · simp [hw]
      · have hw1 : rw.writer = false := by simpa using hw
        simp [hw1]

/-- C6, amended, at a two-shard lock and a core the map does not hold. -/
theorem unmapped_core_resolves_to_shard_zero_witness :
    List.lookup 7 ([(3, 1)] : CoreMap) = none ∧
    DRWMutex.RLocker [(3, 1)] 7 (New 2) = (if 0 < (New 2).length then .done ⟨0⟩ else .fatal) :=
  ⟨by decide, (unmapped_core_resolves_to_shard_zero [(3, 1)] 7 (New 2) (by decide)).2.1⟩

theorem lookup_mem_pair {m : CoreMap} {c : CoreId} {v : Int} (h : m.lookup c = some v) :
    (c, v) ∈ m := by
  obtain ⟨l1, l2, he, _⟩ := List.lookup_eq_some_iff.mp h
  rw [he]
  simp

theorem map_cpus_go_range (P : Nat) (obs : List CoreId) : ∀ m : CoreMap,
    0 < P → (∀ p ∈ m, 0 ≤ p.2 ∧ p.2 < (P : Int)) →
    ∀ p ∈ map_cpus.go P obs m, 0 ≤ p.2 ∧ p.2 < (P : Int) := by
  induction obs with
  | nil => intro m _ hm; simpa [map_cpus.go] using hm
  | cons c rest ih =>
    intro m hP hm
    unfold map_cpus.go
    cases hl : m.lookup c with
    | some v => simpa using ih m hP hm
    | none =>
      simp only
      apply ih _ hP
      intro p hp
      rcases List.mem_append.mp hp with h1 | h1
      · exact hm p h1
      · simp only [List.mem_singleton] at h1
        subst h1
        simp only
        have := Nat.mod_lt m.length hP
        omega

theorem map_cpus_go_keeps (P : Nat) (obs : List CoreId) : ∀ (m : CoreMap) (c : CoreId) (v : Int),
    m.lookup c = some v → (map_cpus.go P obs m).lookup c = some v := by
  induction obs with
  | nil => intro m c v h; simpa [map_cpus.go] using h
  | cons d rest ih =>
    intro m c v h
    unfold map_cpus.go
    cases hl : m.lookup d with
    | some w => simpa using ih m c v h
    | none =>
      simp only
      apply ih
      rw [List.lookup_append, h]
      rfl

theorem map_cpus_go_mapped (P : Nat) (obs : List CoreId) : ∀ (m : CoreMap) (c : CoreId),
    c ∈ obs → ∃ v, (map_cpus.go P obs m).lookup c = some v := by
  induction obs with
  | nil => intro m c h; cases h
  | cons d rest ih =>
    intro m c h
    by_cases hcd : c = d
    · subst hcd
      unfold map_cpus.go
      cases hl : m.lookup c with
      | some w =>
        simp only
        exact ⟨w, map_cpus_go_keeps P rest m c w hl⟩
      | none =>
        simp only
        refine ⟨_, map_cpus_go_keeps P rest _ c ((m.length % P : Nat) : Int) ?_⟩
        rw [List.lookup_append, hl]
        simp
    · have hr : c ∈ rest := by
        rcases List.mem_cons.mp h with h1 | h1
        · exact absurd h1 hcd
        · exact h1
      unfold map_cpus.go
      cases hl : m.lookup d with
      | some w => simpa using ih m c hr
      | none => simpa using ih _ c hr

theorem get_in_range {cpus : CoreMap} {P : Nat} (hP : 0 < P)
    (h : ∀ c v, cpus.lookup c = some v → 0 ≤ v ∧ v < (P : Int)) (c : CoreId) :
    0 ≤ cpus.get c ∧ (cpus.get c).toNat < P := by
  unfold CoreMap.get
  cases hl : cpus.lookup c with
  | none => simpa using hP
  | some v =>
    obtain ⟨h1, h2⟩ := h c v hl
    simp only
    exact ⟨h1, by omega⟩

/-- C7: with `P ≥ 1` the configured parallelism, every index the map built by
the resolver holds lies in `[0, P)` and every observed core is mapped; so on
any lock of `P` shards, such as the one `New` builds, the indexing made by
`RLocker` and `RLock` is in range for every core: neither dies. -/
theorem map_cpus_indices_in_range (P : Nat) (observed : List CoreId) (hP : 0 < P) :
    (∀ c v, (map_cpus P observed).lookup c = some v → 0 ≤ v ∧ v < (P : Int)) ∧
    (∀ c, c ∈ observed → ∃ v, (map_cpus P observed).lookup c = some v) ∧
    (New P).length = P ∧
    (∀ (c : CoreId) (mx : DRWMutex), mx.length = P →
      (∃ l, DRWMutex.RLocker (map_cpus P observed) c mx = .done l ∧ l.shard < P) ∧
      DRWMutex.RLock (map_cpus P observed) c mx ≠ .fatal) := by
  have hrange : ∀ c v, (map_cpus P observed).lookup c = some v → 0 ≤ v ∧ v < (P : Int) := by
    intro c v h
    exact map_cpus_go_range P observed [] hP (by simp) (c, v) (lookup_mem_pair h)
  refine ⟨hrange, fun c hc => map_cpus_go_mapped P observed [] c hc, by simp [New], ?_⟩
  intro c mx hlen
  obtain ⟨h0, h1⟩ := get_in_range hP hrange c
  have hi : DRWMutex.index mx ((map_cpus P observed).get c) = .done _ :=
    index_of_lt h0 (by omega)
  refine ⟨⟨⟨_⟩, by unfold DRWMutex.RLocker; rw [hi]; rfl, h1⟩, ?_⟩
  have hg : mx[((map_cpus P observed).get c).toNat]? = some mx[((map_cpus P observed).get c).toNat] :=
    List.getElem?_eq_getElem (by omega)
  rw [RLock_of_index hi hg]
  by_cases hw : mx[((map_cpus P observed).get c).toNat].writer = true
  · rw [if_pos hw]
    simp
  · rw [if_neg hw]
    simp

/-- C7 with two shards and probes that saw the cores 5, 9, 5, 3, 11. -/
theorem map_cpus_indices_in_range_witness :
    map_cpus 2 [5, 9, 5, 3, 11] = [(5, 0), (9, 1), (3, 0), (11, 1)] ∧ (New 2).length = 2 :=
  ⟨by decide, (map_cpus_indices_in_range 2 [5, 9, 5, 3, 11] (by decide)).2.2.1⟩

/-! ## One shard -/

theorem one_shard_get (rw : RWMutex) : ([rw] : DRWMutex)[0]? = some rw := rfl

theorem Lock_one_shard (rw : RWMutex) :
    (DRWMutex.Lock [rw]).map Prod.fst = rw.Lock.map (fun r => [r]) := by
  unfold DRWMutex.Lock
  simp only [List.length_singleton]
  unfold DRWMutex.Lock.loop
  rw [onShard_of_get (one_shard_get rw)]
  cases ho : rw.Lock with
  | done r => simp [Outcome.map, DRWMutex.Lock.loop]
  | blocked r => simp [Outcome.map]
  | fatal => simp [Outcome.map]

theorem Unlock_one_shard (rw : RWMutex) :
    DRWMutex.Unlock [rw] = rw.Unlock.map (fun r => [r]) := by
  unfold DRWMutex.Unlock
  simp only [List.length_singleton]
  unfold DRWMutex.Unlock.loop
  rw [onShard_of_get (one_shard_get rw)]
  cases ho : rw.Unlock with
  | done r => simp [Outcome.map, DRWMutex.Unlock.loop]
  | blocked r => simp [Outcome.map]
  | fatal => simp [Outcome.map]

theorem RLock_one_shard (cpus : CoreMap) (cpu : CoreId) (rw : RWMutex)
    (h : 0 ≤ cpus.get cpu ∧ cpus.get cpu < 1) :
    DRWMutex.RLock cpus cpu [rw] = rw.RLock.map (fun r => ([r], ⟨0⟩)) := by
  have h0 : cpus.get cpu = 0 := by omega
  have hi : DRWMutex.index [rw] (cpus.get cpu) = .done 0 := by
    rw [h0]
    exact index_of_lt (le_refl _) (by simp)
  rw [RLock_of_index hi (one_shard_get rw)]
  unfold RWMutex.RLock
  by_cases hw : rw.writer = true
  · simp [hw, Outcome.map]
  · simp [hw, Outcome.map]

theorem ticket_Unlock_one_shard (rw : RWMutex) :
    (Ticket.mk 0).Unlock [rw] = rw.RUnlock.map (fun r => [r]) := by
  unfold Ticket.Unlock
  rw [onShard_of_get (one_shard_get rw)]
  cases ho : rw.RUnlock with
  | done r => simp [Outcome.map]
  | blocked r => simp [Outcome.map]
  | fatal => simp [Outcome.map]

theorem call_one_shard (cpus : CoreMap) (hmap : ∀ c, 0 ≤ cpus.get c ∧ cpus.get c < 1)
    (op : Op) (hop : op.ticketsBelow 1) (rw : RWMutex) :
    DRWMutex.call cpus op [rw] = (RWMutex.call op rw).map (fun r => [r]) := by
  cases op with
  | Lock => exact Lock_one_shard rw
  | Unlock => exact Unlock_one_shard rw
  | RLock cpu =>
    simp only [DRWMutex.call, RWMutex.call]
    rw [RLock_one_shard cpus cpu rw (hmap cpu)]
    cases rw.RLock <;> rfl
  | ticketUnlock l =>
    have hl : l = ⟨0⟩ := by
      cases l
      simp only [Op.ticketsBelow] at hop
      simp only [Ticket.mk.injEq]
      omega
    subst hl
    exact ticket_Unlock_one_shard rw

theorem runCalls_one_shard (cpus : CoreMap) (hmap : ∀ c, 0 ≤ cpus.get c ∧ cpus.get c < 1)
    (ops : List Op) : ∀ (rw : RWMutex), (∀ op ∈ ops, op.ticketsBelow 1) →
    runCalls (DRWMutex.call cpus) ops [rw] = (runCalls RWMutex.call ops rw).map (fun r => [r]) := by
  induction ops with
  | nil => intro rw _; rfl
  | cons op rest ih =>
    intro rw hops
    unfold runCalls
    rw [call_one_shard cpus hmap op (hops op (List.mem_cons_self _ _)) rw]
    cases ho : RWMutex.call op rw with
    | done r =>
      simp only [Outcome.map]
      exact ih r (fun o ho => hops o (List.mem_cons_of_mem _ ho))
    | blocked r => rfl
    | fatal => rfl

/-- C10: on a lock of one shard, with the core map yielding indices in
`[0, 1)`, `New` builds one unlocked `sync.RWMutex`, and `Lock`, `Unlock`,
`RLock` (on any core) and the unlock of the ticket have exactly the outcome
(returning, waiting or dying, and the resulting state) of `Lock`, `Unlock`,
`RLock`, `RUnlock` on that one mutex; the ticket is that of shard 0; hence the
same holds for every sequence of such calls. -/
theorem one_shard_is_plain_RWMutex (cpus : CoreMap)
    (hmap : ∀ c, 0 ≤ cpus.get c ∧ cpus.get c < 1) :
    New 1 = [RWMutex.zero] ∧
    (∀ rw : RWMutex,
      (DRWMutex.Lock [rw]).map Prod.fst = rw.Lock.map (fun r => [r]) ∧
      DRWMutex.Unlock [rw] = rw.Unlock.map (fun r => [r]) ∧
      (∀ cpu, DRWMutex.RLock cpus cpu [rw] = rw.RLock.map (fun r => ([r], ⟨0⟩))) ∧
      (Ticket.mk 0).Unlock [rw] = rw.RUnlock.map (fun r => [r])) ∧
    (∀ (ops : List Op) (rw : RWMutex), (∀ op ∈ ops, op.ticketsBelow 1) →
      runCalls (DRWMutex.call cpus) ops [rw] =
        (runCalls RWMutex.call ops rw).map (fun r => [r])) := by
  refine ⟨rfl, ?_, fun ops rw h => runCalls_one_shard cpus hmap ops rw h⟩
  intro rw
  exact ⟨Lock_one_shard rw, Unlock_one_shard rw,
    fun cpu => RLock_one_shard cpus cpu rw (hmap cpu), ticket_Unlock_one_shard rw⟩

/-- C10 with a map that sends core 5 to shard 0. -/
theorem one_shard_is_plain_RWMutex_witness :
    (∀ c, 0 ≤ CoreMap.get [(5, 0)] c ∧ CoreMap.get [(5, 0)] c < 1) ∧
    New 1 = [RWMutex.zero] :=
  have hmap : ∀ c, 0 ≤ CoreMap.get [(5, 0)] c ∧ CoreMap.get [(5, 0)] c < 1 := by
    intro c
    unfold CoreMap.get
    simp only [List.lookup]
    cases c == 5 <;> simp
  ⟨hmap, (one_shard_is_plain_RWMutex [(5, 0)] hmap).1⟩

/-! ## Interleavings: the invariant -/

theorem countP_set_add {α : Type} (p : α → Bool) : ∀ (l : List α) (t : Nat) (c d : α),
    l[t]? = some c →
    (l.set t d).countP p + (p c).toNat = l.countP p + (p d).toNat := by
  intro l
  induction l with
  | nil => intro t c d h; simp at h
  | cons a l ih =>
    intro t c d h
    cases t with
    | zero =>
      simp only [List.getElem?_cons_zero, Option.some.injEq] at h
      subst h
      simp only [List.set_cons_zero, List.countP_cons]
      cases p a <;> cases p d <;> simp
    | succ t =>
      simp only [List.getElem?_cons_succ] at h
      have := ih t c d h
      simp only [List.set_cons_succ, List.countP_cons]
      omega

theorem countP_pos_of_get {α : Type} (p : α → Bool) {l : List α} {t : Nat} {c : α}
    (h : l[t]? = some c) (hp : p c = true) : 0 < l.countP p :=
  List.countP_pos_iff.mpr ⟨c, List.getElem?_mem h, hp⟩

theorem countP_two_of_get {α : Type} (p : α → Bool) : ∀ (l : List α) (t u : Nat) (c d : α),
    l[t]? = some c → l[u]? = some d → t ≠ u → p c = true → p d = true → 2 ≤ l.countP p := by
  intro l t u c d ht hu hne hc hd
  have key : ∀ (l : List α) (t u : Nat), l[t]? = some c → l[u]? = some d → t ≠ u →
      2 ≤ l.countP p := by
    intro l
    induction l with
    | nil => intro t u h; simp at h
    | cons a l ih =>
      intro t u ht hu hne
      cases t with
      | zero =>
        cases u with
        | zero => exact absurd rfl hne
        | succ u =>
          simp only [List.getElem?_cons_zero, Option.some.injEq] at ht
          simp only [List.getElem?_cons_succ] at hu
          subst ht
          have := countP_pos_of_get p hu hd
          simp only [List.countP_cons, hc, if_true]
          omega
      | succ t =>
        cases u with
        | zero =>
          simp only [List.getElem?_cons_zero, Option.some.injEq] at hu
          simp only [List.getElem?_cons_succ] at ht
          subst hu
          have := countP_pos_of_get p ht hc
          simp only [List.countP_cons, hd, if_true]
          omega
        | succ u =>
          simp only [List.getElem?_cons_succ] at ht hu
          have := ih t u ht hu (by omega)
          simp only [List.countP_cons]
          omega
  exact key l t u ht hu hne

theorem get_set_cases {α : Type} {l : List α} {t u : Nat} {d e : α}
    (h : (l.set t d)[u]? = some e) : (u = t ∧ e = d) ∨ (u ≠ t ∧ l[u]? = some e) := by
  by_cases hu : t = u
  · subst hu
    left
    have hlt : t < l.length := by
      by_contra hcon
      rw [List.getElem?_eq_none (by simp; omega)] at h
      cases h
    simp [List.getElem?_set, hlt] at h
    exact ⟨rfl, h.symm⟩
  · right
    rw [List.getElem?_set_ne hu] at h
    exact ⟨fun h1 => hu h1.symm, h⟩

/-- A statement that changes only where caller `t` stands, to a place with
the same holds, keeps the invariant. -/
theorem Inv_move {P : Nat} {s : System} {t : Nat} {c d : Caller} (hinv : Inv P s)
    (ht : s.callers[t]? = some c)
    (hW : ∀ j, j < P → Caller.holdsW j d = Caller.holdsW j c)
    (hR : ∀ j, j < P → Caller.holdsR j d = Caller.holdsR j c)
    (hrl : ∀ l, d = .rlocking l → l.shard < P)
    (hrd : ∀ l, d = .reading l → l.shard < P) :
    Inv P ⟨s.mx, s.callers.set t d⟩ := by
  obtain ⟨hlen, hsh, h1, h2⟩ := hinv
  refine ⟨hlen, ?_, ?_, ?_⟩
  · intro j hj
    obtain ⟨rw, hg, hw, hr, hle, hz⟩ := hsh j hj
    have eW := countP_set_add (Caller.holdsW j) s.callers t c d ht
    have eR := countP_set_add (Caller.holdsR j) s.callers t c d ht
    rw [hW j hj] at eW
    rw [hR j hj] at eR
    have eW1 : (⟨s.mx, s.callers.set t d⟩ : System).writersOn j = s.writersOn j := by
      simp only [System.writersOn]; omega
    have eR1 : (⟨s.mx, s.callers.set t d⟩ : System).readersOn j = s.readersOn j := by
      simp only [System.readersOn]; omega
    refine ⟨rw, hg, ?_, ?_, ?_, ?_⟩
    · rw [eW1]; exact hw
    · rw [eR1]; exact hr
    · rw [eW1]; exact hle
    · rw [eW1, eR1]; exact hz
  · intro u l hu
    rcases get_set_cases hu with ⟨_, he⟩ | ⟨_, he⟩
    · exact hrl l he.symm
    · exact h1 u l he
  · intro u l hu
    rcases get_set_cases hu with ⟨_, he⟩ | ⟨_, he⟩
    · exact hrd l he.symm
    · exact h2 u l he

/-- A statement of caller `t` on shard `i` keeps the invariant when the new
state of shard `i` agrees with the new holds on it. -/
theorem Inv_shard {P : Nat} {s : System} {t i : Nat} {c d : Caller} {rw rw1 : RWMutex}
    (hinv : Inv P s) (ht : s.callers[t]? = some c) (hg : s.mx[i]? = some rw)
    (hW : ∀ j, j < P → j ≠ i → Caller.holdsW j d = Caller.holdsW j c)
    (hR : ∀ j, j < P → j ≠ i → Caller.holdsR j d = Caller.holdsR j c)
    (hrl : ∀ l, d = .rlocking l → l.shard < P)
    (hrd : ∀ l, d = .reading l → l.shard < P)
    (hnew : ∀ W R W1 R1 : Nat,
      W1 + (Caller.holdsW i c).toNat = W + (Caller.holdsW i d).toNat →
      R1 + (Caller.holdsR i c).toNat = R + (Caller.holdsR i d).toNat →
      (rw.writer = true ↔ 0 < W) → rw.readers = R → W ≤ 1 → (0 < W → R = 0) →
      (rw1.writer = true ↔ 0 < W1) ∧ rw1.readers = R1 ∧ W1 ≤ 1 ∧ (0 < W1 → R1 = 0)) :
    Inv P ⟨s.mx.set i rw1, s.callers.set t d⟩ := by
  obtain ⟨hlen, hsh, h1, h2⟩ := hinv
  have hi : i < s.mx.length := by
    by_contra hcon
    rw [List.getElem?_eq_none (by omega)] at hg
    cases hg
  refine ⟨by simp only [List.length_set]; exact hlen, ?_, ?_, ?_⟩
  · intro j hj
    obtain ⟨rwj, hgj, hw, hr, hle, hz⟩ := hsh j hj
    have eW := countP_set_add (Caller.holdsW j) s.callers t c d ht
    have eR := countP_set_add (Caller.holdsR j) s.callers t c d ht
    by_cases hji : j = i
    · subst hji
      rw [hg] at hgj
      simp only [Option.some.injEq] at hgj
      subst hgj
      obtain ⟨n1, n2, n3, n4⟩ := hnew _ _ _ _ eW eR hw hr hle hz
      exact ⟨rw1, by simp [List.getElem?_set, hi], n1, n2, n3, n4⟩
    · rw [hW j hj hji] at eW
      rw [hR j hj hji] at eR
      have eW1 : (⟨s.mx.set i rw1, s.callers.set t d⟩ : System).writersOn j = s.writersOn j := by
        simp only [System.writersOn]; omega
      have eR1 : (⟨s.mx.set i rw1, s.callers.set t d⟩ : System).readersOn j = s.readersOn j := by
        simp only [System.readersOn]; omega
      refine ⟨rwj, ?_, ?_, ?_, ?_, ?_⟩
      · simp only
        rw [List.getElem?_set_ne (Ne.symm hji)]
        exact hgj
      · rw [eW1]; exact hw
      · rw [eR1]; exact hr
      · rw [eW1]; exact hle
      · rw [eW1, eR1]; exact hz
  · intro u l hu
    rcases get_set_cases hu with ⟨_, he⟩ | ⟨_, he⟩
    · exact hrl l he.symm
    · exact h1 u l he
  · intro u l hu
    rcases get_set_cases hu with ⟨_, he⟩ | ⟨_, he⟩
    · exact hrd l he.symm
    · exact h2 u l he

theorem toOption_map_eq_some {α β : Type} {o : Outcome α} {f : α → β} {y : β}
    (h : o.toOption.map f = some y) : ∃ a, o = .done a ∧ f a = y := by
  cases o with
  | done a =>
    simp only [Outcome.toOption, Option.map_some', Option.some.injEq] at h
    exact ⟨a, rfl, h⟩
  | blocked a => simp [Outcome.toOption] at h
  | fatal => simp [Outcome.toOption] at h

theorem shard_Unlock_eq_done {rw rw1 : RWMutex} (h : rw.Unlock = .done rw1) :
    rw.writer = true ∧ rw1 = ⟨false, rw.readers⟩ := by
  unfold RWMutex.Unlock at h
  by_cases hw : rw.writer = true
  · rw [if_pos hw] at h
    simp only [Outcome.done.injEq] at h
    exact ⟨hw, h.symm⟩
  · rw [if_neg hw] at h
    cases h

theorem shard_RLock_eq_done {rw rw1 : RWMutex} (h : rw.RLock = .done rw1) :
    rw.writer = false ∧ rw1 = ⟨false, rw.readers + 1⟩ := by
  unfold RWMutex.RLock at h
  by_cases hw : rw.writer = true
  · rw [if_pos hw] at h
    cases h
  · rw [if_neg hw] at h
    simp only [Outcome.done.injEq] at h
    have hw1 : rw.writer = false := by simpa using hw
    rw [hw1] at h
    exact ⟨hw1, h.symm⟩

theorem shard_RUnlock_eq_done {rw rw1 : RWMutex} (h : rw.RUnlock = .done rw1) :
    0 < rw.readers ∧ rw1 = ⟨rw.writer, rw.readers - 1⟩ := by
  unfold RWMutex.RUnlock at h
  by_cases hr : rw.readers = 0
  · rw [if_pos hr] at h
    cases h
  · rw [if_neg hr] at h
    simp only [Outcome.done.injEq] at h
    exact ⟨by omega, h.symm⟩

theorem Inv_step {cpus : CoreMap} {P : Nat} {s s1 : System} {t : Nat} {a : Action}
    (hinv : Inv P s) (h : step cpus s t a = some s1) : Inv P s1 := by
  have hlen := hinv.1
  unfold step at h
  split at h
  · -- idle, callLock
    rename_i ht
    simp only [Option.some.injEq] at h
    subst h
    exact Inv_move hinv ht (by intro j _; simp [Caller.holdsW])
      (by intro j _; simp [Caller.holdsR]) (by intro l hl; cases hl) (by intro l hl; cases hl)
  · -- locking core, run
    rename_i core ht
    by_cases hc : core < s.mx.length
    · rw [if_pos hc] at h
      obtain ⟨mx1, ho, hs1⟩ := toOption_map_eq_some h
      subst hs1
      obtain ⟨rw, rw1, hg, hop, hset⟩ := onShard_eq_done ho
      obtain ⟨hrw, hrw1⟩ := shard_Lock_eq_done hop
      subst hrw; subst hrw1; subst hset
      refine Inv_shard hinv ht hg ?_ ?_ (by intro l hl; cases hl) (by intro l hl; cases hl) ?_
      · intro j _ hj
        have : (j < core + 1) ↔ (j < core) := by omega
        simp [Caller.holdsW, this]
      · intro j _ _; simp [Caller.holdsR]
      · intro W R W1 R1 eW eR hw hr hle hz
        simp [Caller.holdsW, Caller.holdsR] at eW eR hw hr ⊢
        omega
    · rw [if_neg hc] at h
      simp only [Option.some.injEq] at h
      subst h
      refine Inv_move hinv ht ?_ (by intro j _; simp [Caller.holdsR])
        (by intro l hl; cases hl) (by intro l hl; cases hl)
      intro j hj
      have : j < core := by omega
      simp [Caller.holdsW, this]
  · -- writing, callUnlock
    rename_i ht
    simp only [Option.some.injEq] at h
    subst h
    exact Inv_move hinv ht (by intro j _; simp [Caller.holdsW])
      (by intro j _; simp [Caller.holdsR]) (by intro l hl; cases hl) (by intro l hl; cases hl)
  · -- unlocking core, run
    rename_i core ht
    by_cases hc : core < s.mx.length
    · rw [if_pos hc] at h
      obtain ⟨mx1, ho, hs1⟩ := toOption_map_eq_some h
      subst hs1
      obtain ⟨rw, rw1, hg, hop, hset⟩ := onShard_eq_done ho
      obtain ⟨hrw, hrw1⟩ := shard_Unlock_eq_done hop
      subst hrw1; subst hset
      refine Inv_shard hinv ht hg ?_ ?_ (by intro l hl; cases hl) (by intro l hl; cases hl) ?_
      · intro j _ hj
        have : (core + 1 ≤ j) ↔ (core ≤ j) := by omega
        simp [Caller.holdsW, this]
      · intro j _ _; simp [Caller.holdsR]
      · intro W R W1 R1 eW eR hw hr hle hz
        simp [Caller.holdsW, Caller.holdsR] at eW eR hw hr ⊢
        omega
    · rw [if_neg hc] at h
      simp only [Option.some.injEq] at h
      subst h
      refine Inv_move hinv ht ?_ (by intro j _; simp [Caller.holdsR])
        (by intro l hl; cases hl) (by intro l hl; cases hl)
      intro j hj
      have : ¬ core ≤ j := by omega
      simp [Caller.holdsW, this]
  · -- idle, callRLock
    rename_i cpu ht
    obtain ⟨l, ho, hs1⟩ := toOption_map_eq_some h
    subst hs1
    have hl : l.shard < P := by
      unfold DRWMutex.RLocker at ho
      cases hi : DRWMutex.index s.mx (cpus.get cpu) with
      | done i =>
        rw [hi] at ho
        simp only [Outcome.map, Outcome.done.injEq] at ho
        subst ho
        have := (index_eq_done hi).2.2
        simp only
        omega
      | blocked i => exact absurd hi (index_not_blocked _ _ _)
      | fatal => rw [hi] at ho; simp [Outcome.map] at ho
    refine Inv_move hinv ht (by intro j _; simp [Caller.holdsW])
      (by intro j _; simp [Caller.holdsR]) ?_ (by intro l hl; cases hl)
    intro l1 hl1
    cases hl1
    exact hl
  · -- rlocking l, run
    rename_i l ht
    obtain ⟨mx1, ho, hs1⟩ := toOption_map_eq_some h
    subst hs1
    obtain ⟨rw, rw1, hg, hop, hset⟩ := onShard_eq_done ho
    obtain ⟨hrw, hrw1⟩ := shard_RLock_eq_done hop
    subst hrw1; subst hset
    have hl : l.shard < P := hinv.2.2.1 t l ht
    refine Inv_shard hinv ht hg ?_ ?_ (by intro l hl; cases hl) ?_ ?_
    · intro j _ _; simp [Caller.holdsW]
    · intro j _ hj
      have : ¬ l.shard = j := fun h => hj h.symm
      simp [Caller.holdsR, this]
    · intro l1 hl1
      cases hl1
      exact hl
    · intro W R W1 R1 eW eR hw hr hle hz
      simp [Caller.holdsW, Caller.holdsR, hrw] at eW eR hw hr ⊢
      omega
  · -- reading l, callTicketUnlock
    rename_i l ht
    obtain ⟨mx1, ho, hs1⟩ := toOption_map_eq_some h
    subst hs1
    obtain ⟨rw, rw1, hg, hop, hset⟩ := onShard_eq_done ho
    obtain ⟨hrw, hrw1⟩ := shard_RUnlock_eq_done hop
    subst hrw1; subst hset
    refine Inv_shard hinv ht hg ?_ ?_ (by intro l hl; cases hl) (by intro l hl; cases hl) ?_
    · intro j _ _; simp [Caller.holdsW]
    · intro j _ hj
      have : ¬ l.shard = j := fun h => hj h.symm
      simp [Caller.holdsR, this]
    · intro W R W1 R1 eW eR hw hr hle hz
      simp [Caller.holdsW, Caller.holdsR] at eW eR
      have eW1 : W1 = W := by omega
      subst eW1
      exact ⟨hw, by simp only; omega, hle, by intro h0; have := hz h0; omega⟩
  · cases h

theorem Inv_New {P : Nat} {cs : List Caller}
    (h : ∀ c ∈ cs, c = Caller.idle ∨ c = Caller.locking 0) : Inv P ⟨New P, cs⟩ := by
  refine ⟨by simp [New], ?_, ?_, ?_⟩
  · intro j hj
    have hW : (⟨New P, cs⟩ : System).writersOn j = 0 := by
      simp only [System.writersOn]
      rw [List.countP_eq_zero]
      intro c hc
      rcases h c hc with h1 | h1 <;> subst h1 <;> simp [Caller.holdsW]
    have hR : (⟨New P, cs⟩ : System).readersOn j = 0 := by
      simp only [System.readersOn]
      rw [List.countP_eq_zero]
      intro c hc
      rcases h c hc with h1 | h1 <;> subst h1 <;> simp [Caller.holdsR]
    refine ⟨RWMutex.zero, ?_, ?_, ?_, ?_, ?_⟩
    · simp [New, List.getElem?_replicate, hj]
    · rw [hW]; simp [RWMutex.zero]
    · rw [hR]; rfl
    · rw [hW]; omega
    · rw [hW]; omega
  · intro t l ht
    rcases h _ (List.getElem?_mem ht) with h1 | h1 <;> cases h1
  · intro t l ht
    rcases h _ (List.getElem?_mem ht) with h1 | h1 <;> cases h1

theorem Inv_of_Reachable {cpus : CoreMap} {P N : Nat} {s : System}
    (h : Reachable cpus P N s) : Inv P s := by
  induction h with
  | init =>
    apply Inv_New
    intro c hc
    exact Or.inl (List.eq_of_mem_replicate hc)
  | next t a _ hstep ih => exact Inv_step ih hstep

/-- While some caller holds every shard (it stands at `writing`), every shard
is write-locked without readers, nobody stands at `reading`, and nobody else
stands at `writing`. -/
theorem Inv_writing {P : Nat} {s : System} {t : Nat} (hP : 0 < P) (hinv : Inv P s)
    (ht : s.callers[t]? = some Caller.writing) :
    s.mx = List.replicate P ⟨true, 0⟩ ∧
    (∀ (u : Nat) (l : Ticket), s.callers[u]? ≠ some (Caller.reading l)) ∧
    (∀ u : Nat, s.callers[u]? = some Caller.writing → u = t) := by
  obtain ⟨hlen, hsh, _, hrd⟩ := hinv
  have hpos : ∀ j, 0 < s.writersOn j := fun j =>
    countP_pos_of_get (Caller.holdsW j) ht (by simp [Caller.holdsW])
  refine ⟨?_, ?_, ?_⟩
  · rw [← hlen]
    apply eq_replicate_of_getElem?
    intro j hj
    obtain ⟨rw, hg, hw, hr, _, hz⟩ := hsh j (by omega)
    rw [hg]
    cases rw with
    | mk w r =>
      simp only at hw hr
      have h1 : w = true := hw.mpr (hpos j)
      have h2 : r = 0 := by rw [hr]; exact hz (hpos j)
      rw [h1, h2]
  · intro u l hu
    have hl := hrd u l hu
    obtain ⟨rw, _, _, _, _, hz⟩ := hsh l.shard hl
    have h0 := hz (hpos l.shard)
    have h1 := countP_pos_of_get (Caller.holdsR l.shard) hu (by simp [Caller.holdsR])
    simp only [System.readersOn] at h0
    omega
  · intro u hu
    by_contra hne
    obtain ⟨rw, _, _, _, hle, _⟩ := hsh 0 hP
    have h2 := countP_two_of_get (Caller.holdsW 0) s.callers u t _ _ hu ht hne
      (by simp [Caller.holdsW]) (by simp [Caller.holdsW])
    simp only [System.writersOn] at hle
    omega

/-- C1: in every state reachable from the lock `New` builds (`P ≥ 1` shards)
by statements of `Lock`, `Unlock`, `RLock` and ticket unlocks of any number
`N` of callers, when caller `t` has returned from `Lock` and not yet called
`Unlock`, every shard is write-locked with no reader count, no caller holds a
reader lock, and no other caller has returned from `Lock` without having
called `Unlock`. -/
theorem writer_excludes_readers_and_writers (cpus : CoreMap) (P N : Nat) (s : System)
    (t : Nat) (hP : 0 < P) (hreach : Reachable cpus P N s)
    (ht : s.callers[t]? = some Caller.writing) :
    s.mx = List.replicate P ⟨true, 0⟩ ∧
    (∀ j, j < P → s.readersOn j = 0 ∧ s.writersOn j = 1) ∧
    (∀ (u : Nat) (l : Ticket), s.callers[u]? ≠ some (Caller.reading l)) ∧
    (∀ u : Nat, s.callers[u]? = some Caller.writing → u = t) := by
  have hinv := Inv_of_Reachable hreach
  obtain ⟨h1, h2, h3⟩ := Inv_writing hP hinv ht
  refine ⟨h1, ?_, h2, h3⟩
  intro j hj
  obtain ⟨rw, _, _, _, hle, hz⟩ := hinv.2.1 j hj
  have hpos : 0 < s.writersOn j :=
    countP_pos_of_get (Caller.holdsW j) ht (by simp [Caller.holdsW])
  exact ⟨hz hpos, by omega⟩

/-- C1 on a one-shard lock with two callers, after caller 0 has run `Lock`. -/
theorem writer_excludes_readers_and_writers_witness :
    Reachable [] 1 2 ⟨[⟨true, 0⟩], [Caller.writing, Caller.idle]⟩ ∧
    (⟨[⟨true, 0⟩], [Caller.writing, Caller.idle]⟩ : System).mx = List.replicate 1 ⟨true, 0⟩ :=
  have h0 : Reachable [] 1 2 ⟨New 1, [Caller.idle, Caller.idle]⟩ := Reachable.init
  have h1 : Reachable [] 1 2 ⟨New 1, [Caller.locking 0, Caller.idle]⟩ :=
    Reachable.next 0 Action.callLock h0 (by decide)
  have h2 : Reachable [] 1 2 ⟨[⟨true, 0⟩], [Caller.locking 1, Caller.idle]⟩ :=
    Reachable.next 0 Action.run h1 (by decide)
  have h3 : Reachable [] 1 2 ⟨[⟨true, 0⟩], [Caller.writing, Caller.idle]⟩ :=
    Reachable.next 0 Action.run h2 (by decide)
  ⟨h3, (writer_excludes_readers_and_writers [] 1 2 _ 0 (by decide) h3 (by decide)).1⟩

/-! ## Interleavings: writers make progress -/

theorem sum_map_set_add {α : Type} (f : α → Nat) : ∀ (l : List α) (t : Nat) (c d : α),
    l[t]? = some c → ((l.set t d).map f).sum + f c = (l.map f).sum + f d := by
  intro l
  induction l with
  | nil => intro t c d h; simp at h
  | cons a l ih =>
    intro t c d h
    cases t with
    | zero =>
      simp only [List.getElem?_cons_zero, Option.some.injEq] at h
      subst h
      simp only [List.set_cons_zero, List.map_cons, List.sum_cons]
      omega
    | succ t =>
      simp only [List.getElem?_cons_succ] at h
      have := ih t c d h
      simp only [List.set_cons_succ, List.map_cons, List.sum_cons]
      omega

theorem wstep_is_step {s s1 : System} {t : Nat} (h : wstep s t = some s1) :
    ∃ a, step [] s t a = some s1 := by
  unfold wstep at h
  split at h
  · exact ⟨_, h⟩
  · exact ⟨_, h⟩
  · exact ⟨_, h⟩
  · cases h

theorem wstep_callers {P : Nat} {s s1 : System} {t : Nat} (h : wstep s t = some s1) :
    ∃ c d, s.callers[t]? = some c ∧ s1.callers = s.callers.set t d ∧
      Caller.isWriter d = true ∧ (s.mx.length = P → Caller.work P d + 1 = Caller.work P c) := by
  unfold wstep at h
  split at h
  · rename_i core ht
    simp only [step, ht] at h
    by_cases hc : core < s.mx.length
    · rw [if_pos hc] at h
      obtain ⟨mx1, _, hs1⟩ := toOption_map_eq_some h
      subst hs1
      refine ⟨_, _, ht, rfl, rfl, ?_⟩
      intro hlen
      simp only [Caller.work]
      omega
    · rw [if_neg hc] at h
      simp only [Option.some.injEq] at h
      subst h
      refine ⟨_, _, ht, rfl, rfl, ?_⟩
      intro hlen
      simp only [Caller.work]
      omega
  · rename_i ht
    simp only [step, ht, Option.some.injEq] at h
    subst h
    refine ⟨_, _, ht, rfl, rfl, ?_⟩
    intro _
    simp only [Caller.work]
    omega
  · rename_i core ht
    simp only [step, ht] at h
    by_cases hc : core < s.mx.length
    · rw [if_pos hc] at h
      obtain ⟨mx1, _, hs1⟩ := toOption_map_eq_some h
      subst hs1
      refine ⟨_, _, ht, rfl, rfl, ?_⟩
      intro hlen
      simp only [Caller.work]
      omega
    · rw [if_neg hc] at h
      simp only [Option.some.injEq] at h
      subst h
      refine ⟨_, _, ht, rfl, rfl, ?_⟩
      intro hlen
      simp only [Caller.work]
      omega
  · cases h

theorem WInv_step {P N : Nat} {s s1 : System} {t : Nat} (hinv : WInv P N s)
    (h : wstep s t = some s1) : WInv P N s1 := by
  obtain ⟨h1, h2, h3⟩ := hinv
  obtain ⟨a, ha⟩ := wstep_is_step h
  obtain ⟨c, d, _, hcs, hd, _⟩ := wstep_callers (P := P) h
  refine ⟨Inv_step h1 ha, by rw [hcs, List.length_set]; exact h2, ?_⟩
  intro e he
  rw [hcs] at he
  rcases List.mem_or_eq_of_mem_set he with h4 | h4
  · exact h3 e h4
  · rw [h4]; exact hd

theorem WInv_of_WReachable {P N : Nat} {s : System} (h : WReachable P N s) : WInv P N s := by
  induction h with
  | init =>
    refine ⟨Inv_New ?_, by simp, ?_⟩
    · intro c hc
      exact Or.inr (List.eq_of_mem_replicate hc)
    · intro c hc
      rw [List.eq_of_mem_replicate hc]
      rfl
  | next t _ hstep ih => exact WInv_step ih hstep

theorem wstep_work {P N : Nat} {s s1 : System} {t : Nat} (hinv : WInv P N s)
    (h : wstep s t = some s1) : s1.work P + 1 = s.work P := by
  obtain ⟨c, d, ht, hcs, _, hw⟩ := wstep_callers (P := P) h
  have h1 := sum_map_set_add (Caller.work P) s.callers t c d ht
  have h2 := hw hinv.1.1
  simp only [System.work, hcs]
  omega

theorem enabled_writing {s : System} {t : Nat} (ht : s.callers[t]? = some Caller.writing) :
    ∃ s1, wstep s t = some s1 := by
  simp [wstep, step, ht]

theorem enabled_return_Lock {s : System} {t core : Nat}
    (ht : s.callers[t]? = some (Caller.locking core)) (hc : ¬ core < s.mx.length) :
    ∃ s1, wstep s t = some s1 := by
  simp [wstep, step, ht, hc]

theorem enabled_unlocking {P : Nat} {s : System} {t core : Nat} (hinv : Inv P s)
    (ht : s.callers[t]? = some (Caller.unlocking core)) : ∃ s1, wstep s t = some s1 := by
  by_cases hc : core < s.mx.length
  · obtain ⟨rw, hg, hw, _, _, _⟩ := hinv.2.1 core (by rw [← hinv.1]; exact hc)
    have hpos : 0 < s.writersOn core :=
      countP_pos_of_get (Caller.holdsW core) ht (by simp [Caller.holdsW])
    have hwt : rw.writer = true := hw.mpr hpos
    simp [wstep, step, ht, hc, onShard_of_get hg, RWMutex.Unlock, hwt, Outcome.map,
      Outcome.toOption]
  · simp [wstep, step, ht, hc]

theorem readersOn_eq_zero {s : System} (h : ∀ c ∈ s.callers, Caller.isWriter c = true)
    (j : Nat) : s.readersOn j = 0 := by
  simp only [System.readersOn]
  rw [List.countP_eq_zero]
  intro c hc
  have := h c hc
  cases c <;> simp_all [Caller.holdsR, Caller.isWriter]

/-- The lock-ordering argument: a caller inside `Lock` waits, if at all, on a
shard held by a caller that is further ahead, and the one furthest ahead can
execute its statement. -/
theorem enabled_locking {P N : Nat} {s : System} (hinv : WInv P N s) :
    ∀ (d core t : Nat), P - core ≤ d → s.callers[t]? = some (Caller.locking core) →
    ∃ u s1, wstep s u = some s1 := by
  intro d
  induction d with
  | zero =>
    intro core t hd ht
    exact ⟨t, enabled_return_Lock ht (by rw [hinv.1.1]; omega)⟩
  | succ d ih =>
    intro core t hd ht
    by_cases hc : core < s.mx.length
    · have hcP : core < P := by rw [← hinv.1.1]; exact hc
      obtain ⟨rw, hg, hw, hr, _, _⟩ := hinv.1.2.1 core hcP
      have hr0 : rw.readers = 0 := by rw [hr]; exact readersOn_eq_zero hinv.2.2 core
      by_cases hwt : rw.writer = true
      · have hpos : 0 < s.writersOn core := hw.mp hwt
        obtain ⟨e, he, hhold⟩ := List.countP_pos_iff.mp hpos
        obtain ⟨u, hu⟩ := List.getElem?_of_mem he
        cases e with
        | idle => simp [Caller.holdsW] at hhold
        | locking k =>
          simp only [Caller.holdsW, decide_eq_true_eq] at hhold
          exact ih k u (by omega) hu
        | writing => exact ⟨u, enabled_writing hu⟩
        | unlocking k => exact ⟨u, enabled_unlocking hinv.1 hu⟩
        | rlocking l => simp [Caller.holdsW] at hhold
        | reading l => simp [Caller.holdsW] at hhold
      · have hwf : rw.writer = false := by simpa using hwt
        refine ⟨t, ?_⟩
        simp [wstep, step, ht, hc, onShard_of_get hg, RWMutex.Lock, hwf, hr0, Outcome.map,
          Outcome.toOption]
    · exact ⟨t, enabled_return_Lock ht hc⟩

theorem writers_progress {P N : Nat} {s : System} (hinv : WInv P N s) {t : Nat} {c : Caller}
    (ht : s.callers[t]? = some c) (hc : c ≠ Caller.idle) : ∃ u s1, wstep s u = some s1 := by
  cases c with
  | idle => exact absurd rfl hc
  | locking core => exact enabled_locking hinv (P - core) core t (le_refl _) ht
  | writing => exact ⟨t, enabled_writing ht⟩
  | unlocking core => exact ⟨t, enabled_unlocking hinv.1 ht⟩
  | rlocking l =>
    have := hinv.2.2 _ (List.getElem?_mem ht)
    simp [Caller.isWriter] at this
  | reading l =>
    have := hinv.2.2 _ (List.getElem?_mem ht)
    simp [Caller.isWriter] at this

/-- When every caller is idle again the lock is as `New` built it. -/
theorem all_idle_final {P N : Nat} {s : System} (hinv : WInv P N s)
    (hidle : ∀ c ∈ s.callers, c = Caller.idle) :
    s = ⟨New P, List.replicate N Caller.idle⟩ := by
  obtain ⟨⟨hlen, hsh, _, _⟩, hN, hwr⟩ := hinv
  have hmx : s.mx = List.replicate s.mx.length (⟨false, 0⟩ : RWMutex) := by
    apply eq_replicate_of_getElem?
    intro j hj
    obtain ⟨rw, hg, hw, hr, _, _⟩ := hsh j (by omega)
    have hW : s.writersOn j = 0 := by
      simp only [System.writersOn]
      rw [List.countP_eq_zero]
      intro c hc
      rw [hidle c hc]
      simp [Caller.holdsW]
    have hR : s.readersOn j = 0 := readersOn_eq_zero hwr j
    rw [hg]
    cases rw with
    | mk w r =>
      simp only at hw hr
      have h1 : w = false := by
        cases w
        · rfl
        · have := hw.mp rfl
          omega
      rw [h1, hr, hR]
  have hcs : s.callers = List.replicate N Caller.idle :=
    List.eq_replicate_iff.mpr ⟨hN, hidle⟩
  cases s with
  | mk mx cs =>
    simp only at hmx hcs hlen
    rw [hmx, hcs, hlen]
    rfl

theorem work_eq_zero {P : Nat} {s : System} (h : s.work P = 0) :
    ∀ c ∈ s.callers, c = Caller.idle := by
  intro c hc
  simp only [System.work] at h
  have h1 : Caller.work P c ∈ s.callers.map (Caller.work P) := List.mem_map_of_mem _ hc
  have h2 : Caller.work P c = 0 := List.sum_eq_zero_iff.mp h _ h1
  cases c <;> simp [Caller.work] at h2 ⊢

theorem exists_not_idle {s : System} (h : ¬ (∀ c ∈ s.callers, c = Caller.idle)) :
    ∃ (t : Nat) (c : Caller), s.callers[t]? = some c ∧ c ≠ Caller.idle := by
  push_neg at h
  obtain ⟨c, hc, hne⟩ := h
  obtain ⟨t, ht⟩ := List.getElem?_of_mem hc
  exact ⟨t, c, ht, hne⟩

theorem writers_complete {P N : Nat} : ∀ (n : Nat) (s : System), WInv P N s → s.work P ≤ n →
    ∃ sched, runW sched s = some ⟨New P, List.replicate N Caller.idle⟩ := by
  intro n
  induction n with
  | zero =>
    intro s hinv hn
    refine ⟨[], ?_⟩
    simp only [runW]
    exact congrArg some (all_idle_final hinv (work_eq_zero (P := P) (by omega)))
  | succ n ih =>
    intro s hinv hn
    by_cases hidle : ∀ c ∈ s.callers, c = Caller.idle
    · exact ⟨[], by simp only [runW]; exact congrArg some (all_idle_final hinv hidle)⟩
    · obtain ⟨t, c, ht, hne⟩ := exists_not_idle hidle
      obtain ⟨u, s1, hs1⟩ := writers_progress hinv ht hne
      have hw := wstep_work hinv hs1
      obtain ⟨sched, hsched⟩ := ih s1 (WInv_step hinv hs1) (by omega)
      refine ⟨u :: sched, ?_⟩
      simp only [runW, hs1]
      exact hsched

theorem runW_work {P N : Nat} : ∀ (sched : List Nat) (s s1 : System), WInv P N s →
    runW sched s = some s1 → WInv P N s1 ∧ sched.length + s1.work P = s.work P := by
  intro sched
  induction sched with
  | nil =>
    intro s s1 hinv h
    simp only [runW, Option.some.injEq] at h
    subst h
    exact ⟨hinv, by simp⟩
  | cons t rest ih =>
    intro s s1 hinv h
    simp only [runW] at h
    cases hs : wstep s t with
    | none => rw [hs] at h; cases h
    | some s2 =>
      rw [hs] at h
      obtain ⟨h1, h2⟩ := ih s2 s1 (WInv_step hinv hs) h
      have hw := wstep_work hinv hs
      refine ⟨h1, ?_⟩
      simp only [List.length_cons]
      omega

/-- C9: `N` callers run `Lock` (each then `Unlock`) on the lock `New` built.
In every reachable state in which some caller has not finished, some caller
can execute its next statement (no circular wait); every run uses up the
statements left one by one, so no run is longer than what is left; a run that
cannot be continued has ended with every call returned and the lock as `New`
built it; and such a run exists from every reachable state. -/
theorem writers_deadlock_free (P N : Nat) (s : System) (hreach : WReachable P N s) :
    ((∃ (t : Nat) (c : Caller), s.callers[t]? = some c ∧ c ≠ Caller.idle) →
      ∃ u s1, wstep s u = some s1) ∧
    (∀ sched s1, runW sched s = some s1 → sched.length + s1.work P = s.work P) ∧
    (∀ sched s1, runW sched s = some s1 → (∀ u, wstep s1 u = none) →
      s1 = ⟨New P, List.replicate N Caller.idle⟩) ∧
    (∃ sched, runW sched s = some ⟨New P, List.replicate N Caller.idle⟩) := by
  have hinv := WInv_of_WReachable hreach
  refine ⟨?_, ?_, ?_, writers_complete (s.work P) s hinv (le_refl _)⟩
  · rintro ⟨t, c, ht, hc⟩
    exact writers_progress hinv ht hc
  · intro sched s1 h
    exact (runW_work sched s s1 hinv h).2
  · intro sched s1 h hstuck
    have hinv1 := (runW_work sched s s1 hinv h).1
    apply all_idle_final hinv1
    by_contra hidle
    obtain ⟨t, c, ht, hne⟩ := exists_not_idle hidle
    obtain ⟨u, s2, hs2⟩ := writers_progress hinv1 ht hne
    rw [hstuck u] at hs2
    cases hs2

/-- C9 with two callers on a one-shard lock, both having called `Lock`. -/
theorem writers_deadlock_free_witness :
    WReachable 1 2 ⟨New 1, List.replicate 2 (Caller.locking 0)⟩ ∧
    ∃ u s1, wstep ⟨New 1, List.replicate 2 (Caller.locking 0)⟩ u = some s1 :=
  ⟨WReachable.init,
   (writers_deadlock_free 1 2 _ WReachable.init).1
     ⟨0, Caller.locking 0, by decide, by decide⟩⟩

end Drwmutex
